import Mathlib

/-!
Verification of the NShare file server core (server.js) against its
natural-language specification.  The JavaScript source is shallowly embedded:
paths are lists of segments, the filesystem is a finite tree of named nodes,
and every HTTP handler that the claims mention is modelled as a pure function
from a server state and request parameters to a new state, a response and the
list of socket broadcasts it performs.
-/

namespace NShare

/-! ## Path model

POSIX paths.  A canonical absolute path is a list of plain segments (no
empty, dot or dotdot segments); the string form is "/" followed by the
segments joined with "/".  `resolveSeg` models how Node's path.resolve and
path.join process one raw segment against an absolute base.
-/

/-- Split a raw path string at every slash, as Node's path functions do. -/
def splitSlashAux : List Char → List Char → List String
  | [], acc => [String.mk acc.reverse]
  | c :: rest, acc =>
    if c = '/' then String.mk acc.reverse :: splitSlashAux rest []
    else splitSlashAux rest (c :: acc)

def splitSlash (s : String) : List String := splitSlashAux s.data []

/-- Canonicalization step of path.resolve: empty and dot segments are
dropped, dotdot removes the last segment (a no-op at the root), any other
segment is appended. -/
def resolveSeg (st : List String) (seg : String) : List String :=
  if seg = "" ∨ seg = "." then st
  else if seg = ".." then st.dropLast
  else st ++ [seg]

def resolveSegs (st : List String) (segs : List String) : List String :=
  segs.foldl resolveSeg st

/-- Render canonical segments back to the absolute string form produced by
path.resolve. -/
def joinSegs : List String → String
  | [] => ""
  | [s] => s
  | s :: rest => s ++ "/" ++ joinSegs rest

def segsToString (segs : List String) : String := "/" ++ joinSegs segs

/-- JavaScript String.prototype.startsWith. -/
def strStarts (s p : String) : Bool := p.data.isPrefixOf s.data

/-- safeJoin from server.js (lines 401-403):
path.resolve(path.join(dir, filename)) where dir is the canonical BASE_DIR.
The filename is split at slashes and resolved against the base segments. -/
def safeJoin (root : List String) (candidate : String) : List String :=
  resolveSegs root (splitSlash candidate)

/-- isSafePath from server.js (lines 405-409): a plain string startsWith
comparison of the two resolved paths, with no separator check. -/
def isSafePath (p root : List String) : Bool :=
  strStarts (segsToString p) (segsToString root)

/-- Spec notion (section 4.1): the canonical result must have the root as a
path-prefix, i.e. the root segments must be a prefix of the path segments. -/
def underRoot (root p : List String) : Bool := root.isPrefixOf p

/-! ## Input validation (server.js lines 411-424) -/

def isInvalidChar (c : Char) : Bool :=
  c = '<' || c = '>' || c = ':' || c = '"' || c = '|' || c = '?' || c = '*' ||
    decide (c.toNat ≤ 31)

def lowerChar (c : Char) : Char :=
  if 65 ≤ c.toNat ∧ c.toNat ≤ 90 then Char.ofNat (c.toNat + 32) else c

def lowerStr (s : String) : String := String.mk (s.data.map lowerChar)

def reservedNames : List String :=
  ["con", "prn", "aux", "nul",
   "com1", "com2", "com3", "com4", "com5", "com6", "com7", "com8", "com9",
   "lpt1", "lpt2", "lpt3", "lpt4", "lpt5", "lpt6", "lpt7", "lpt8", "lpt9"]

/-- isValidFileName from server.js (lines 412-417).  Note that the invalid
character class does not include the slash, the backslash or the dot. -/
def isValidFileName (s : String) : Bool :=
  !(s = "") && !(s.data.any isInvalidChar) &&
    !(reservedNames.contains (lowerStr s)) && decide (s.data.length ≤ 255)

/-- isValidPath from server.js (lines 419-424). -/
def isValidPath (s : String) : Bool :=
  s = "" || (decide (s.data.length ≤ 1000) && !(s.data.any (fun c => c.toNat == 0)))

/-- JavaScript String.prototype.trim restricted to ASCII whitespace. -/
def isWsChar (c : Char) : Bool := c = ' ' || c = '\t' || c = '\n' || c = '\r'

def trimStr (s : String) : String :=
  String.mk (((s.data.dropWhile isWsChar).reverse.dropWhile isWsChar).reverse)

/-- C1: the sandbox check is claimed to reject every dotdot path whose
canonical form escapes the configured root.  With the root /uploads, the
client path ../uploads2/secret canonicalizes to /uploads2/secret, which lies
outside the root (the root segments are not a prefix of it), yet
isSafePath accepts it because the flat string /uploads2/secret starts with
the flat string /uploads.  The code disagrees with the claim at this input. -/
theorem c1_sandbox_escape_accepted :
    safeJoin ["uploads"] "../uploads2/secret" = ["uploads2", "secret"] ∧
    isSafePath (safeJoin ["uploads"] "../uploads2/secret") ["uploads"] = true ∧
    underRoot ["uploads"] (safeJoin ["uploads"] "../uploads2/secret") = false := by
  decide

/-! ## Filesystem model

The host filesystem is a finite tree rooted at "/".  Directories carry an
association list of named children, kept sorted by name: a real directory is
a name-to-node map, and the sorted list is its canonical representation.
Absolute canonical paths (the segment lists produced by safeJoin) address
nodes from the root. -/

inductive FSNode where
  | file (content : String)
  | dir (children : List (String × FSNode))

mutual

def FSNode.decEq : (a b : FSNode) → Decidable (a = b)
  | .file a, .file b =>
    match String.decEq a b with
    | isTrue h => isTrue (h ▸ rfl)
    | isFalse h => isFalse (fun e => h (FSNode.file.inj e))
  | .file _, .dir _ => isFalse (fun e => FSNode.noConfusion e)
  | .dir _, .file _ => isFalse (fun e => FSNode.noConfusion e)
  | .dir a, .dir b =>
    match decEqChildren a b with
    | isTrue h => isTrue (h ▸ rfl)
    | isFalse h => isFalse (fun e => h (FSNode.dir.inj e))

def decEqChildren : (a b : List (String × FSNode)) → Decidable (a = b)
  | [], [] => isTrue rfl
  | [], _ :: _ => isFalse (fun e => List.noConfusion e)
  | _ :: _, [] => isFalse (fun e => List.noConfusion e)
  | (k1, v1) :: r1, (k2, v2) :: r2 =>
    match String.decEq k1 k2, FSNode.decEq v1 v2, decEqChildren r1 r2 with
    | isTrue h1, isTrue h2, isTrue h3 => isTrue (by rw [h1, h2, h3])
    | isFalse h1, _, _ => isFalse (fun e => by cases e; exact h1 rfl)
    | _, isFalse h2, _ => isFalse (fun e => by cases e; exact h2 rfl)
    | _, _, isFalse h3 => isFalse (fun e => by cases e; exact h3 rfl)

end

instance : DecidableEq FSNode := FSNode.decEq

/-- Lexicographic order on character lists by code point, used only to keep
the directory representation canonical. -/
def keyLt : List Char → List Char → Bool
  | [], [] => false
  | [], _ :: _ => true
  | _ :: _, [] => false
  | a :: as, b :: bs =>
    if a.toNat < b.toNat then true
    else if b.toNat < a.toNat then false
    else keyLt as bs

def strLt (a b : String) : Bool := keyLt a.data b.data

/-- First child with the given name (directory entry lookup). -/
def getChild : List (String × FSNode) → String → Option FSNode
  | [], _ => none
  | (k, v) :: rest, s => if s = k then some v else getChild rest s

def insertChild : List (String × FSNode) → String → FSNode → List (String × FSNode)
  | [], s, n => [(s, n)]
  | (k, v) :: rest, s, n =>
    if strLt s k then (s, n) :: (k, v) :: rest
    else if s = k then (s, n) :: rest
    else (k, v) :: insertChild rest s n

def removeChild : List (String × FSNode) → String → List (String × FSNode)
  | [], _ => []
  | (k, v) :: rest, s =>
    if k = s then removeChild rest s else (k, v) :: removeChild rest s

/-- Node addressed by an absolute canonical path (stat / existsSync). -/
def lookup : FSNode → List String → Option FSNode
  | n, [] => some n
  | .file _, _ :: _ => none
  | .dir cs, s :: rest =>
    match getChild cs s with
    | some c => lookup c rest
    | none => none

def existsFS (fs : FSNode) (p : List String) : Bool := (lookup fs p).isSome

def isFileFS (fs : FSNode) (p : List String) : Bool :=
  match lookup fs p with
  | some (.file _) => true
  | _ => false

def isDirFS (fs : FSNode) (p : List String) : Bool :=
  match lookup fs p with
  | some (.dir _) => true
  | _ => false

/-- Create or replace the node at a nonempty path.  Fails (ENOENT) when an
intermediate component is missing or is a file, as the rename and write
system calls do. -/
def insertAt : FSNode → List String → FSNode → Option FSNode
  | _, [], n => some n
  | .file _, _ :: _, _ => none
  | .dir cs, [s], n => some (.dir (insertChild cs s n))
  | .dir cs, s :: rest, n =>
    match getChild cs s with
    | some c => (insertAt c rest n).map (fun c' => .dir (insertChild cs s c'))
    | none => none

/-- Remove the node at a nonempty path; fails when it is absent. -/
def removeAt : FSNode → List String → Option FSNode
  | _, [] => none
  | .file _, _ :: _ => none
  | .dir cs, [s] =>
    match getChild cs s with
    | some _ => some (.dir (removeChild cs s))
    | none => none
  | .dir cs, s :: rest =>
    match getChild cs s with
    | some c => (removeAt c rest).map (fun c' => .dir (insertChild cs s c'))
    | none => none

/-- Filesystem error conditions surfaced by the Node fs module, together
with the message text the OS attaches to them. -/
inductive FsErr where
  | ENOENT
  | EISDIR
  | ENOTDIR
  | EXDEV
  | EPERM
deriving DecidableEq

def FsErr.message : FsErr → String
  | .ENOENT => "ENOENT: no such file or directory"
  | .EISDIR => "EISDIR: illegal operation on a directory"
  | .ENOTDIR => "ENOTDIR: not a directory"
  | .EXDEV => "EXDEV: cross-device link not permitted"
  | .EPERM => "EPERM: operation not permitted"

/-- fs.renameSync: moves the node at old to new. -/
def renameFS (fs : FSNode) (old new : List String) : Except FsErr FSNode :=
  match lookup fs old with
  | none => .error .ENOENT
  | some n =>
    match removeAt fs old with
    | none => .error .ENOENT
    | some fs1 =>
      match insertAt fs1 new n with
      | some fs2 => .ok fs2
      | none => .error .ENOENT

/-- fs.unlinkSync: removes a file, refusing directories. -/
def unlinkFS (fs : FSNode) (p : List String) : Except FsErr FSNode :=
  match lookup fs p with
  | some (.file _) =>
    match removeAt fs p with
    | some fs1 => .ok fs1
    | none => .error .ENOENT
  | some (.dir _) => .error .EISDIR
  | none => .error .ENOENT

/-- fs.rmSync with recursive and force: removes whatever is there, silently
succeeding when the path is already absent. -/
def rmForceFS (fs : FSNode) (p : List String) : FSNode :=
  match removeAt fs p with
  | some fs1 => fs1
  | none => fs

/-- fs.mkdirSync with recursive: creates every missing directory along the
path, failing only when a file is in the way. -/
def mkdirp : FSNode → List String → Option FSNode
  | n, [] => match n with | .dir _ => some n | .file _ => none
  | .file _, _ :: _ => none
  | .dir cs, s :: rest =>
    match getChild cs s with
    | some c => (mkdirp c rest).map (fun c' => FSNode.dir (insertChild cs s c'))
    | none => (mkdirp (.dir []) rest).map (fun c' => FSNode.dir (insertChild cs s c'))

/-- fs.writeFileSync: creates or overwrites a file, needing the parent to
exist. -/
def writeFileFS (fs : FSNode) (p : List String) (content : String) : Option FSNode :=
  insertAt fs p (.file content)

/-! ### Well-formedness: sorted children with recursively well-formed nodes -/

mutual

def sortedKeys : List (String × FSNode) → Bool
  | [] => true
  | [_] => true
  | (a, _) :: (b, c) :: rest =>
    strLt a b && sortedKeys ((b, c) :: rest)

def FSNode.wfb : FSNode → Bool
  | .file _ => true
  | .dir cs => sortedKeys cs && wfbList cs

def wfbList : List (String × FSNode) → Bool
  | [] => true
  | c :: rest => c.2.wfb && wfbList rest

end

/-! ## sanitizeError (server.js lines 426-436)

The five chained regex replacements are modelled as character list scanners:
a global replacement of Windows drive paths, a global replacement of
slash paths, and first-match replacements of the ENOENT, EACCES and EPERM
messages (the dot of the regex stops at a newline). -/

def isAlphaChar (c : Char) : Bool :=
  (65 ≤ c.toNat && c.toNat ≤ 90) || (97 ≤ c.toNat && c.toNat ≤ 122)

def pathTagChars : List Char := "[file path]".data

mutual

/-- Global replacement of the Windows drive pattern
letter colon slash-or-backslash followed by one or more non-colons. -/
def rdScan : List Char → List Char
  | [] => []
  | c :: c1 :: c2 :: c3 :: rest2 =>
    if isAlphaChar c ∧ c1 = ':' ∧ (c2 = '/' ∨ c2 = '\\') ∧ ¬(c3 = ':') then
      pathTagChars ++ rdConsume rest2
    else c :: rdScan (c1 :: c2 :: c3 :: rest2)
  | c :: rest => c :: rdScan rest

/-- Consume the rest of a drive path match (non-colon characters), then
resume scanning. -/
def rdConsume : List Char → List Char
  | [] => []
  | c :: rest => if c = ':' then c :: rdScan rest else rdConsume rest

end

mutual

/-- Global replacement of a slash followed by one or more non-colons. -/
def rsScan : List Char → List Char
  | [] => []
  | c :: c1 :: rest2 =>
    if c = '/' ∧ ¬(c1 = ':') then pathTagChars ++ rsConsume rest2
    else c :: rsScan (c1 :: rest2)
  | [c] => [c]

def rsConsume : List Char → List Char
  | [] => []
  | c :: rest => if c = ':' then c :: rsScan rest else rsConsume rest

end

/-- First-match replacement of an error code followed by the rest of the
line, leaving any following lines untouched. -/
def replaceCodeAux (pat rep : List Char) : List Char → List Char
  | [] => []
  | c :: rest =>
    if pat.isPrefixOf (c :: rest) then
      rep ++ (c :: rest).dropWhile (fun ch => !(ch = '\n'))
    else c :: replaceCodeAux pat rep rest

def sanitizeError (e : String) : String :=
  let s1 := rdScan e.data
  let s2 := rsScan s1
  let s3 := replaceCodeAux "ENOENT".data "File or directory not found".data s2
  let s4 := replaceCodeAux "EACCES".data "Permission denied".data s3
  let s5 := replaceCodeAux "EPERM".data "Operation not permitted".data s4
  String.mk s5

/-! ## Upload name collision resolution (server.js lines 609-624)

path.extname takes the suffix from the last dot that is not the leading
character; path.basename(name, ext) is then the part before it.  The while
loop tries the original name first and then name_1, name_2, and so on,
taking the first candidate with no entry in the destination directory. -/

def lastDotIdxAux : List Char → Nat → Option Nat → Option Nat
  | [], _, acc => acc
  | c :: rest, i, acc =>
    lastDotIdxAux rest (i + 1) (if c = '.' ∧ 0 < i then some i else acc)

/-- Split a file name into base and extension the way path.extname and
path.basename do for ordinary names. -/
def extSplit (s : String) : String × String :=
  match lastDotIdxAux s.data 0 none with
  | none => (s, "")
  | some i => (String.mk (s.data.take i), String.mk (s.data.drop i))

def myExtname (s : String) : String := (extSplit s).2

/-- Candidate number k of the collision loop: attempt 0 is the desired name
itself, attempt k is base_k.ext. -/
def candidateName (orig : String) : Nat → String
  | 0 => orig
  | Nat.succ k => (extSplit orig).1 ++ "_" ++ Nat.repr (k + 1) ++ (extSplit orig).2

/-- Names present in a directory (what existsSync sees for each candidate). -/
def childNames (fs : FSNode) (d : List String) : List String :=
  match lookup fs d with
  | some (.dir cs) => cs.map Prod.fst
  | _ => []

def hasName : List String → String → Bool
  | [], _ => false
  | k :: rest, n => if n = k then true else hasName rest n

/-- The while loop of the upload handler, tested against the set of names
occupied in the destination directory.  The fuel argument only bounds the
search; one more attempt than there are occupied names always suffices. -/
def findFreeName (occupied : List String) (orig : String) : Nat → Nat → String
  | k, 0 => candidateName orig k
  | k, Nat.succ fuel =>
    if hasName occupied (candidateName orig k) then
      findFreeName occupied orig (k + 1) fuel
    else candidateName orig k

def uploadTargetName (fs : FSNode) (uploadDir : List String) (orig : String) : String :=
  let occ := childNames fs uploadDir
  findFreeName occ orig 0 (occ.length + 1)

/-! ## Server state and route handlers

The process-wide mutable state consists of the filesystem and the single
undo slot (the lastOperation global, server.js line 57).  Each handler is a
pure function from state and request parameters to the new state, the HTTP
response, and the list of file_updated broadcasts it emits directly.
Timestamps carried by undo records do not influence any behaviour in the
claims and are omitted. -/

inductive Resp where
  | success (data : List String)
  | error (status : Nat) (msg : String)
deriving DecidableEq

inductive UndoRecord where
  | upload (files : List (List String))
  | createFolder (path : List String)
  | rename (old new : List String)
  | delete (originalPath : List String)
deriving DecidableEq

structure ServerState where
  fs : FSNode
  lastOperation : Option UndoRecord
deriving DecidableEq

/-- path.dirname applied to the relative request path (used for the emitted
subtree path). -/
def dirnameStr (s : String) : String :=
  let segs := splitSlash s
  if segs.length ≤ 1 then "." else joinSegs segs.dropLast

/-- Temp file cleanup of the upload handler: unlink every temp path,
ignoring individual errors. -/
def cleanupTemps (fs : FSNode) (temps : List (List String)) : FSNode :=
  temps.foldl
    (fun f t => match unlinkFS f t with | .ok f' => f' | .error _ => f) fs

/-- The move of one uploaded temp file into place (server.js lines 626-638):
renameSync, with a copy-then-delete fallback when the rename fails with
EXDEV or EPERM, and any other error rethrown. -/
def moveIntoPlace (fs : FSNode) (temp dest : List String) : Except FsErr FSNode :=
  match renameFS fs temp dest with
  | .ok fs' => .ok fs'
  | .error e =>
    if e = FsErr.EXDEV ∨ e = FsErr.EPERM then
      match lookup fs temp with
      | some (.file c) =>
        match writeFileFS fs dest c with
        | some fs1 => unlinkFS fs1 temp
        | none => .error .ENOENT
      | some (.dir _) => .error .EISDIR
      | none => .error .ENOENT
    else .error e

/-- The per-file loop of the upload handler.  On failure it returns the
filesystem as mutated so far (already moved files stay), the original name
of the failing file, and the error message. -/
def uploadLoop (fs : FSNode) (uploadDir : List String) :
    List (List String × String) → List String →
      Except (FSNode × String × String) (FSNode × List String)
  | [], acc => .ok (fs, acc.reverse)
  | (temp, orig) :: rest, acc =>
    match moveIntoPlace fs temp (uploadDir ++ [uploadTargetName fs uploadDir orig]) with
    | .ok fs' => uploadLoop fs' uploadDir rest (uploadTargetName fs uploadDir orig :: acc)
    | .error e => .error (fs, orig, e.message)

/-- POST /upload (server.js lines 584-657).  Each file argument is a pair of
the multer temp path and the original name. -/
def uploadOp (st : ServerState) (root : List String) (pathStr : String)
    (files : List (List String × String)) : ServerState × Resp × List String :=
  if !(isSafePath (safeJoin root pathStr) root) then
    ({ st with fs := cleanupTemps st.fs (files.map Prod.fst) },
      .error 400 "Invalid path", [])
  else if !(existsFS st.fs (safeJoin root pathStr)) then
    ({ st with fs := cleanupTemps st.fs (files.map Prod.fst) },
      .error 400 "Directory does not exist", [])
  else
    match uploadLoop st.fs (safeJoin root pathStr) files [] with
    | .error (fs1, orig, msg) =>
      ({ st with fs := cleanupTemps fs1 (files.map Prod.fst) },
        .error 500 ("Failed to save " ++ orig ++ ": " ++ msg), [])
    | .ok (fs', uploaded) =>
      ({ fs := fs',
         lastOperation :=
           some (.upload (uploaded.map (fun f => safeJoin root pathStr ++ [f]))) },
        .success uploaded, [pathStr])

/-- POST /create_folder (server.js lines 709-754).  The new folder path is
path.join(parentDir, folderName), never passed through the sandbox check. -/
def createFolderOp (st : ServerState) (root : List String)
    (pathStr nameRaw : String) : ServerState × Resp × List String :=
  if trimStr nameRaw = "" then (st, .error 400 "Folder name required", [])
  else if !(isValidFileName (trimStr nameRaw) && isValidPath pathStr) then
    (st, .error 400 "Invalid folder name or path", [])
  else if !(isSafePath (safeJoin root pathStr) root) then
    (st, .error 400 "Invalid path", [])
  else if existsFS st.fs (resolveSegs (safeJoin root pathStr) (splitSlash (trimStr nameRaw))) then
    (st, .error 400 "Folder already exists", [])
  else
    match mkdirp st.fs (resolveSegs (safeJoin root pathStr) (splitSlash (trimStr nameRaw))) with
    | some fs' =>
      ({ fs := fs',
         lastOperation :=
           some (.createFolder
             (resolveSegs (safeJoin root pathStr) (splitSlash (trimStr nameRaw)))) },
        .success [], [pathStr])
    | none =>
      (st, .error 500
        (sanitizeError ("Failed to create folder: " ++ FsErr.ENOTDIR.message)), [])

/-- POST /delete (server.js lines 756-798).  The undo slot is overwritten
with a delete record before the removal is attempted. -/
def deleteOp (st : ServerState) (root : List String) (pathStr : String) :
    ServerState × Resp × List String :=
  if !(isValidPath pathStr) then (st, .error 400 "Invalid path", [])
  else if !(isSafePath (safeJoin root pathStr) root) then
    (st, .error 400 "Invalid path", [])
  else
    match lookup st.fs (safeJoin root pathStr) with
    | none => (st, .error 404 "Item not found", [])
    | some (.file _) =>
      match unlinkFS st.fs (safeJoin root pathStr) with
      | .ok fs' =>
        ({ fs := fs', lastOperation := some (.delete (safeJoin root pathStr)) },
          .success [], [dirnameStr pathStr])
      | .error e =>
        ({ st with lastOperation := some (.delete (safeJoin root pathStr)) },
          .error 500 (sanitizeError ("Failed to delete: " ++ e.message)), [])
    | some (.dir _) =>
      ({ fs := rmForceFS st.fs (safeJoin root pathStr),
         lastOperation := some (.delete (safeJoin root pathStr)) },
        .success [], [dirnameStr pathStr])

/-- Destination path of the rename handler:
path.join(path.dirname(fullOldPath), newName); only the old path goes
through the sandbox check. -/
def renameDest (fullOldPath : List String) (newName : String) : List String :=
  resolveSegs fullOldPath.dropLast (splitSlash newName)

def renameOp (st : ServerState) (root : List String)
    (pathStr nameRaw : String) : ServerState × Resp × List String :=
  if trimStr nameRaw = "" then (st, .error 400 "New name required", [])
  else if !(isValidFileName (trimStr nameRaw) && isValidPath pathStr) then
    (st, .error 400 "Invalid file name or path", [])
  else if !(isSafePath (safeJoin root pathStr) root) then
    (st, .error 400 "Invalid path", [])
  else if !(existsFS st.fs (safeJoin root pathStr)) then
    (st, .error 404 "Item not found", [])
  else if existsFS st.fs (renameDest (safeJoin root pathStr) (trimStr nameRaw)) then
    (st, .error 400 "Name already exists", [])
  else
    match renameFS st.fs (safeJoin root pathStr)
        (renameDest (safeJoin root pathStr) (trimStr nameRaw)) with
    | .ok fs' =>
      ({ fs := fs',
         lastOperation :=
           some (.rename (safeJoin root pathStr)
             (renameDest (safeJoin root pathStr) (trimStr nameRaw))) },
        .success [], [dirnameStr pathStr])
    | .error e =>
      (st, .error 500 (sanitizeError ("Failed to rename: " ++ e.message)), [])

/-- Reversal work of the undo handler for an upload record: unlink each
listed path that still exists, stopping at the first thrown error. -/
def undoUploadLoop (fs : FSNode) : List (List String) → FSNode × Option FsErr
  | [] => (fs, none)
  | p :: rest =>
    if existsFS fs p then
      match unlinkFS fs p with
      | .ok fs' => undoUploadLoop fs' rest
      | .error e => (fs, some e)
    else undoUploadLoop fs rest

/-- Dispatch of the undo handler on the record variant (server.js lines
862-882).  A delete record matches no branch and reverses nothing. -/
def undoApply (fs : FSNode) : UndoRecord → FSNode × Option FsErr
  | .upload files => undoUploadLoop fs files
  | .createFolder p => (if existsFS fs p then rmForceFS fs p else fs, none)
  | .rename o n =>
    if existsFS fs n then
      match renameFS fs n o with
      | .ok fs' => (fs', none)
      | .error e => (fs, some e)
    else (fs, none)
  | .delete _ => (fs, none)

/-- POST /undo (server.js lines 856-894).  The slot is cleared inside the
try block, after the reversal: a thrown reversal leaves the record in
place.  The error message is sent without sanitizeError. -/
def undoOp (st : ServerState) : ServerState × Resp × List String :=
  match st.lastOperation with
  | none => (st, .error 400 "No operation to undo", [])
  | some op =>
    match undoApply st.fs op with
    | (fs', none) => ({ fs := fs', lastOperation := none }, .success [], [""])
    | (fs', some e) =>
      ({ st with fs := fs' }, .error 500 ("Failed to undo: " ++ e.message), [])

/-- GET /download (server.js lines 659-677).  A success carries the served
file content. -/
def downloadOp (fs : FSNode) (root : List String) (pathStr : String) : Resp :=
  if !(isSafePath (safeJoin root pathStr) root) then .error 400 "Invalid path"
  else
    match lookup fs (safeJoin root pathStr) with
    | none => .error 404 "File not found"
    | some (.file c) => .success [c]
    | some (.dir _) => .error 400 "Path is not a file"

/-- Model of the mime-types lookup followed by the text check of the
preview handler: true when the extension resolves to a known non-text
type.  An empty or unknown extension gives a falsy lookup, which the
handler lets through. -/
def mimeIsNonText (name : String) : Bool :=
  (lowerStr (myExtname name)) ∈
    [".png", ".jpg", ".jpeg", ".gif", ".pdf", ".zip", ".mp4", ".mp3"]

/-- GET /preview (server.js lines 896-921). -/
def previewOp (fs : FSNode) (root : List String) (pathStr : String) : Resp :=
  if !(isSafePath (safeJoin root pathStr) root) then .error 400 "Invalid path"
  else
    match lookup fs (safeJoin root pathStr) with
    | some (.file c) =>
      if mimeIsNonText ((safeJoin root pathStr).getLastD "") then
        .error 400 "File is not a text file"
      else .success [String.mk (c.data.take 10000)]
    | _ => .error 404 "File not found"

/-- Case-insensitive substring test, as item.toLowerCase().includes(query). -/
def containsSub : List Char → List Char → Bool
  | l, pat => if pat.isPrefixOf l then true else
    match l with
    | [] => false
    | _ :: rest => containsSub rest pat

def includesCI (item q : String) : Bool :=
  containsSub (lowerStr item).data (lowerStr q).data

/-- name.startsWith(dot) branch of isHidden (server.js lines 354-360); the
Windows attribute branch is inactive on POSIX. -/
def isHiddenName (name : String) : Bool := strStarts name "."

/-- Directory listing of GET / (server.js lines 439-492), reduced to the
entry names it returns: search filtering and the hidden-entry skip; a
failure of any of the validation steps redirects (none).  Sorting permutes
the items and does not affect membership. -/
def listNamesOp (fs : FSNode) (root : List String)
    (pathStr searchQ : String) : Option (List String) :=
  if !(isValidPath pathStr && isValidPath searchQ) then none
  else if !(isSafePath (safeJoin root pathStr) root) then none
  else
    match lookup fs (safeJoin root pathStr) with
    | none => none
    | some (.file _) => some []
    | some (.dir cs) =>
      some ((cs.map Prod.fst).filter (fun item =>
        (searchQ = "" || includesCI item searchQ) && !(isHiddenName item)))

/-! ## Claim C2: sandbox coverage of every filesystem path -/

/-- Concrete server state used to exercise the rename traversal: a root
directory /uploads containing a.txt, and a sibling /etc directory. -/
def c2fs : FSNode :=
  .dir [("etc", .dir []), ("uploads", .dir [("a.txt", .file "top secret")])]

/-- C2: the claim says every absolute path reaching a filesystem call
satisfies the sandbox predicate.  Renaming a.txt to ../../etc/evil passes
every check of the rename handler (the new name contains no character of
the invalid class), and the handler renames the file to /etc/evil, a path
that fails the sandbox predicate and lies outside the root. -/
theorem c2_rename_escapes_sandbox :
    isValidFileName "../../etc/evil" = true ∧
    (renameOp ⟨c2fs, none⟩ ["uploads"] "a.txt" "../../etc/evil").2.1 =
      .success [] ∧
    (renameOp ⟨c2fs, none⟩ ["uploads"] "a.txt" "../../etc/evil").1.lastOperation =
      some (.rename ["uploads", "a.txt"] ["etc", "evil"]) ∧
    isSafePath ["etc", "evil"] ["uploads"] = false ∧
    underRoot ["uploads"] ["etc", "evil"] = false ∧
    lookup (renameOp ⟨c2fs, none⟩ ["uploads"] "a.txt" "../../etc/evil").1.fs
      ["etc", "evil"] = some (.file "top secret") := by
  refine ⟨by decide, by decide, by decide, by decide, by decide, by decide⟩

/-! ## Claim C4: delete and the undo slot -/

/-- Server state with a single file x under the root. -/
def c4fs : FSNode := .dir [("uploads", .dir [("x", .file "data")])]

def c4st1 : ServerState := (deleteOp ⟨c4fs, none⟩ ["uploads"] "x").1

/-- C4 counterexample: after a successful delete the undo slot holds a
delete record (the claim says it is never populated), and the immediately
following undo call reports success (the claim says it fails with
NoPendingOperation). -/
theorem c4_delete_populates_slot :
    (deleteOp ⟨c4fs, none⟩ ["uploads"] "x").2.1 = .success [] ∧
    c4st1.lastOperation = some (.delete ["uploads", "x"]) ∧
    (undoOp c4st1).2.1 = .success [] := by
  refine ⟨by decide, by decide, by decide⟩

/-- C4 amended: a successful delete stores a delete record in the slot;
the immediately following undo returns success, changes nothing in the
filesystem, and clears the slot, so the deleted item is not restored and no
earlier operation is reversed. -/
theorem c4_undo_after_delete (st : ServerState) (root : List String)
    (p : String) (st' : ServerState) (em : List String)
    (h : deleteOp st root p = (st', .success [], em)) :
    st'.lastOperation = some (.delete (safeJoin root p)) ∧
    undoOp st' = ({ fs := st'.fs, lastOperation := none }, .success [], [""]) := by
  unfold deleteOp at h
  split at h
  · simp at h
  · split at h
    · simp at h
    · split at h
      · simp at h
      · split at h
        · rw [Prod.mk.injEq, Prod.mk.injEq] at h
          obtain ⟨h1, h2, h3⟩ := h
          subst h1
          exact ⟨rfl, rfl⟩
        · simp at h
      · rw [Prod.mk.injEq, Prod.mk.injEq] at h
        obtain ⟨h1, h2, h3⟩ := h
        subst h1
        exact ⟨rfl, rfl⟩

theorem c4_undo_after_delete_witness :
    (deleteOp ⟨c4fs, none⟩ ["uploads"] "x").1.lastOperation =
      some (.delete (safeJoin ["uploads"] "x")) ∧
    undoOp (deleteOp ⟨c4fs, none⟩ ["uploads"] "x").1 =
      ({ fs := (deleteOp ⟨c4fs, none⟩ ["uploads"] "x").1.fs,
         lastOperation := none }, .success [], [""]) :=
  c4_undo_after_delete ⟨c4fs, none⟩ ["uploads"] "x" _ _ rfl

/-! ## Claim C5: undo slot clearing -/

/-- State with a pending rename record whose reversal must fail: the parent
directory of the recorded old path no longer exists. -/
def c5st : ServerState :=
  ⟨.dir [("uploads", .dir [("y", .file "c")])],
    some (.rename ["uploads", "a", "x"] ["uploads", "y"])⟩

/-- C5 counterexample: the claim says one applyUndo empties the slot whether
the reversal succeeded or failed, and a second undo always reports
NoPendingOperation.  Here the reversal throws (the rename back fails with
ENOENT), the slot keeps its record, and the second undo retries the same
reversal instead of failing with NoPendingOperation. -/
theorem c5_failed_undo_keeps_slot :
    (undoOp c5st).2.1 =
      .error 500 "Failed to undo: ENOENT: no such file or directory" ∧
    (undoOp c5st).1.lastOperation =
      some (.rename ["uploads", "a", "x"] ["uploads", "y"]) ∧
    (undoOp (undoOp c5st).1).2.1 =
      .error 500 "Failed to undo: ENOENT: no such file or directory" := by
  refine ⟨by decide, by decide, by decide⟩

/-- C5 amended: after applyUndo on a non-empty slot, the slot is empty
exactly when the reversal did not throw; a thrown reversal leaves the
record in place, so the next undo retries it rather than reporting
NoPendingOperation. -/
theorem c5_slot_cleared_iff_no_throw (st : ServerState) (r : UndoRecord)
    (h : st.lastOperation = some r) :
    ((undoOp st).2.1 = .success [] → (undoOp st).1.lastOperation = none) ∧
    (∀ s m, (undoOp st).2.1 = .error s m →
      (undoOp st).1.lastOperation = some r) := by
  unfold undoOp
  rw [h]
  dsimp only
  rcases hu : undoApply st.fs r with ⟨fs', _ | e⟩ <;> simp

theorem c5_slot_cleared_iff_no_throw_witness :
    c5st.lastOperation = some (.rename ["uploads", "a", "x"] ["uploads", "y"]) ∧
    (undoOp c5st).1.lastOperation =
      some (.rename ["uploads", "a", "x"] ["uploads", "y"]) :=
  ⟨by decide,
    (c5_slot_cleared_iff_no_throw c5st
      (.rename ["uploads", "a", "x"] ["uploads", "y"]) rfl).2
      500 "Failed to undo: ENOENT: no such file or directory" (by decide)⟩

/-! ## Claim C9: error message sanitization -/

/-- Root directory with no temp file in place, so that the upload move
throws and the handler takes its catch branch. -/
def c9fs : FSNode := .dir [("uploads", .dir [])]

/-- C9 counterexample: the claim says no error branch lets a verbatim OS
error code cross the boundary.  The upload catch branch interpolates the
raw message: the response contains the string ENOENT verbatim. -/
theorem c9_upload_error_leaks_code :
    (uploadOp ⟨c9fs, none⟩ ["uploads"] "" [(["tmp", "t1"], "x.txt")]).2.1 =
      .error 500 "Failed to save x.txt: ENOENT: no such file or directory" ∧
    containsSub
      "Failed to save x.txt: ENOENT: no such file or directory".data
      "ENOENT".data = true := by
  refine ⟨by decide, by decide⟩

/-- C9 amended: the rename (and create_folder, delete) failure branches
pass their messages through sanitizeError, which maps the known OS codes to
fixed phrases and strips path-like text, while the undo (and upload) failure
branches embed the raw OS message verbatim. -/
theorem c9_sanitization_is_selective (st : ServerState) (root : List String)
    (p nm : String) :
    (∀ s m, (undoOp st).2.1 = .error s m →
      m = "No operation to undo" ∨
        ∃ e : FsErr, m = "Failed to undo: " ++ e.message) ∧
    (∀ s m, (renameOp st root p nm).2.1 = .error s m →
      m = "New name required" ∨ m = "Invalid file name or path" ∨
        m = "Invalid path" ∨ m = "Item not found" ∨ m = "Name already exists" ∨
        ∃ e : FsErr, m = sanitizeError ("Failed to rename: " ++ e.message)) ∧
    sanitizeError
        "Failed to rename: ENOENT: no such file or directory, rename /app/uploads/a" =
      "Failed to rename: File or directory not found" ∧
    containsSub ("Failed to undo: " ++ FsErr.ENOENT.message).data
      "ENOENT".data = true := by
  refine ⟨?_, ?_, by decide, by decide⟩
  · intro s m hm
    unfold undoOp at hm
    rcases hl : st.lastOperation with _ | r
    · rw [hl] at hm
      simp at hm
      exact Or.inl hm.2.symm
    · rw [hl] at hm
      dsimp only at hm
      rcases hu : undoApply st.fs r with ⟨fs', _ | e⟩
      · rw [hu] at hm
        simp at hm
      · rw [hu] at hm
        simp at hm
        exact Or.inr ⟨e, hm.2.symm⟩
  · intro s m hm
    unfold renameOp at hm
    split at hm
    · simp at hm
      exact Or.inl hm.2.symm
    · split at hm
      · simp at hm
        exact Or.inr (Or.inl hm.2.symm)
      · split at hm
        · simp at hm
          exact Or.inr (Or.inr (Or.inl hm.2.symm))
        · split at hm
          · simp at hm
            exact Or.inr (Or.inr (Or.inr (Or.inl hm.2.symm)))
          · split at hm
            · simp at hm
              exact Or.inr (Or.inr (Or.inr (Or.inr (Or.inl hm.2.symm))))
            · split at hm
              · simp at hm
              · rename_i e he
                simp at hm
                exact Or.inr (Or.inr (Or.inr (Or.inr (Or.inr ⟨e, hm.2.symm⟩))))

theorem c9_sanitization_is_selective_witness :
    (undoOp ⟨c9fs, none⟩).2.1 = .error 400 "No operation to undo" ∧
    ("No operation to undo" = "No operation to undo" ∨
      ∃ e : FsErr, "No operation to undo" = "Failed to undo: " ++ e.message) :=
  ⟨by decide,
    (c9_sanitization_is_selective ⟨c9fs, none⟩ ["uploads"] "a" "b").1
      400 "No operation to undo" (by decide)⟩

/-! ## Claim C8: debouncing of change notifications

The fs.watch callback (server.js lines 1026-1034) clears and restarts a
single 500 ms timer on every raw signal; the broadcast fires only when no
further signal arrives before the timer elapses.  For a sorted list of
signal arrival times this yields one broadcast per maximal burst: a signal
is absorbed when the next one arrives within 500 ms of it.

The mutating handlers do not go through this timer: each successful
operation emits its file_updated broadcast directly (the emit list returned
by the handler models exactly those direct broadcasts). -/

def watchBroadcasts : List Nat → Nat
  | [] => 0
  | [_] => 1
  | a :: b :: rest => (if b < a + 500 then 0 else 1) + watchBroadcasts (b :: rest)

/-- Total number of broadcasts emitted by a sequence of upload requests of
one file each, processed back to back. -/
def mutationBroadcastTotal (st : ServerState) (root : List String)
    (pathStr : String) : List (List String × String) → Nat
  | [] => 0
  | f :: rest =>
    (uploadOp st root pathStr [f]).2.2.length +
      mutationBroadcastTotal (uploadOp st root pathStr [f]).1 root pathStr rest

/-- Fifty temp files t0 .. t49 under /tmp and an empty root directory. -/
def c8fs : FSNode :=
  (List.range 50).foldl
    (fun f i => ((writeFileFS f ["tmp", "t" ++ Nat.repr i] "x").getD f))
    (.dir [("tmp", .dir []), ("uploads", .dir [])])

def c8reqs : List (List String × String) :=
  (List.range 50).map (fun i => (["tmp", "t" ++ Nat.repr i], "a.txt"))

/-- C8 counterexample: the claim says 50 notifications within a 500 ms
window — from the watcher or from the mutation engine — reach observers as
exactly one aggregated broadcast.  Fifty successful upload requests emit
fifty immediate broadcasts, one each, with no debouncing. -/
theorem c8_mutations_not_debounced :
    mutationBroadcastTotal ⟨c8fs, none⟩ ["uploads"] "" c8reqs = 50 ∧
    ¬(mutationBroadcastTotal ⟨c8fs, none⟩ ["uploads"] "" c8reqs = 1) := by
  refine ⟨by decide, by decide⟩

/-- C8 amended: only the raw watcher signals are debounced — any burst in
which each signal follows the previous one within 500 ms produces exactly
one broadcast once the timer elapses — while the mutation engine emits one
immediate broadcast per successful operation, so 50 mutations yield 50
broadcasts. -/
theorem c8_watcher_debounced (t : Nat) (ts : List Nat)
    (h : List.Chain (fun a b => b < a + 500) t ts) :
    watchBroadcasts (t :: ts) = 1 ∧
    mutationBroadcastTotal ⟨c8fs, none⟩ ["uploads"] "" c8reqs = 50 := by
  refine ⟨?_, by decide⟩
  induction ts generalizing t with
  | nil => rfl
  | cons b rest ih =>
    rcases h with _ | ⟨hb, hrest⟩
    have : watchBroadcasts (t :: b :: rest) = 0 + watchBroadcasts (b :: rest) := by
      simp [watchBroadcasts, hb]
    rw [this, Nat.zero_add]
    exact ih b hrest

theorem c8_watcher_debounced_witness :
    List.Chain (fun a b => b < a + 500) 0 [100, 200, 300, 400, 499] ∧
    watchBroadcasts (0 :: [100, 200, 300, 400, 499]) = 1 :=
  ⟨by simp [List.chain_cons], (c8_watcher_debounced 0 [100, 200, 300, 400, 499]
    (by simp [List.chain_cons])).1⟩

/-! ## Claim C7: the polling sweep (server.js lines 1036-1061)

pollForChanges walks every directory under the root, records each
directory's modification time into a fresh map, and emits a change event
for a directory exactly when the previous map has an entry for it with a
different time.  The walk is modelled structurally over the directory tree
(the stack order of the source walk only permutes the recorded entries and
events, which the claims do not depend on). -/

inductive DirTree where
  | node (mtime : Nat) (children : List (String × DirTree))

def DirTree.mtime : DirTree → Nat
  | .node m _ => m

def namesNodup : List String → Bool
  | [] => true
  | n :: rest => !(hasName rest n) && namesNodup rest

mutual

def DirTree.wfb : DirTree → Bool
  | .node _ cs => namesNodup (cs.map Prod.fst) && wfbListT cs

def wfbListT : List (String × DirTree) → Bool
  | [] => true
  | c :: rest => c.2.wfb && wfbListT rest

end

def lookupM : List (List String × Nat) → List String → Option Nat
  | [], _ => none
  | (k, v) :: rest, p => if p = k then some v else lookupM rest p

def csFind : List (String × DirTree) → String → Option DirTree
  | [], _ => none
  | (k, v) :: rest, s => if s = k then some v else csFind rest s

/-- Modification time of the subdirectory at a relative path. -/
def mtimeAt : DirTree → List String → Option Nat
  | .node m _, [] => some m
  | .node _ cs, s :: rest =>
    match csFind cs s with
    | some c => mtimeAt c rest
    | none => none

mutual

/-- One sweep of the subtree rooted at path p: the recorded
(directory path, mtime) entries and the emitted change events. -/
def sweepNode (last : List (List String × Nat)) (p : List String) :
    DirTree → List (List String × Nat) × List (List String)
  | .node m cs =>
    ((p, m) :: (sweepList last p cs).1,
      (match lookupM last p with
       | some x => if x = m then [] else [p]
       | none => []) ++ (sweepList last p cs).2)

def sweepList (last : List (List String × Nat)) (p : List String) :
    List (String × DirTree) → List (List String × Nat) × List (List String)
  | [] => ([], [])
  | (name, c) :: rest =>
    ((sweepNode last (p ++ [name]) c).1 ++ (sweepList last p rest).1,
      (sweepNode last (p ++ [name]) c).2 ++ (sweepList last p rest).2)

end

mutual

theorem sweepNode_baseline : ∀ (p : List String) (t : DirTree),
    (sweepNode [] p t).2 = []
  | p, .node m cs => by
    show (match lookupM [] p with
      | some x => if x = m then [] else [p]
      | none => []) ++ (sweepList [] p cs).2 = []
    rw [sweepList_baseline p cs]
    rfl

theorem sweepList_baseline : ∀ (p : List String) (cs : List (String × DirTree)),
    (sweepList [] p cs).2 = []
  | _, [] => rfl
  | p, (n, c) :: rest => by
    show (sweepNode [] (p ++ [n]) c).2 ++ (sweepList [] p rest).2 = []
    rw [sweepNode_baseline (p ++ [n]) c, sweepList_baseline p rest]
    rfl

end

theorem lookupM_append_left {A B : List (List String × Nat)} {q : List String}
    (h : lookupM A q = none) : lookupM (A ++ B) q = lookupM B q := by
  induction A with
  | nil => rfl
  | cons kv rest ih =>
    obtain ⟨k, v⟩ := kv
    by_cases hq : q = k
    · simp [lookupM, hq] at h
    · simp only [lookupM, List.cons_append, if_neg hq] at h ⊢
      exact ih h

theorem lookupM_none_of_no_key {L : List (List String × Nat)} {q : List String}
    (h : ∀ m, (q, m) ∉ L) : lookupM L q = none := by
  induction L with
  | nil => rfl
  | cons kv rest ih =>
    obtain ⟨k, v⟩ := kv
    by_cases hq : q = k
    · subst hq
      exact absurd (List.mem_cons_self (q, v) rest) (h v)
    · simp only [lookupM, if_neg hq]
      exact ih (fun m hm => h m (List.mem_cons_of_mem _ hm))

mutual

/-- Every entry recorded when sweeping the subtree at p has a key extending
p. -/
theorem sweepNode_key_shape : ∀ (last : List (List String × Nat))
    (p q : List String) (m : Nat) (t : DirTree),
    (q, m) ∈ (sweepNode last p t).1 → ∃ r, q = p ++ r
  | last, p, q, m, .node mt cs => by
    intro hmem
    rcases List.mem_cons.mp hmem with h | h
    · exact ⟨[], by simp [(Prod.mk.injEq .. ▸ h).1]⟩
    · obtain ⟨n, r, hq⟩ := sweepList_key_shape last p q m cs h
      exact ⟨n :: r, hq⟩

theorem sweepList_key_shape : ∀ (last : List (List String × Nat))
    (p q : List String) (m : Nat) (cs : List (String × DirTree)),
    (q, m) ∈ (sweepList last p cs).1 → ∃ n r, q = p ++ n :: r
  | last, p, q, m, [] => by intro h; exact absurd h (List.not_mem_nil _)
  | last, p, q, m, (n, c) :: rest => by
    intro hmem
    rcases List.mem_append.mp hmem with h | h
    · obtain ⟨r, hq⟩ := sweepNode_key_shape last (p ++ [n]) q m c h
      exact ⟨n, r, by simpa using hq⟩
    · obtain ⟨n', r, hq⟩ := sweepList_key_shape last p q m rest h
      exact ⟨n', r, hq⟩

end

theorem lookupM_append_none {A B : List (List String × Nat)} {q : List String}
    (hA : lookupM A q = none) (hB : lookupM B q = none) :
    lookupM (A ++ B) q = none := by
  rw [lookupM_append_left hA]
  exact hB

theorem ne_append_cons (p : List String) (n : String) (r : List String) :
    p ++ n :: r ≠ p := by
  intro h
  have := congrArg List.length h
  simp at this

theorem hasName_of_mem {l : List String} {n : String} (h : n ∈ l) :
    hasName l n = true := by
  induction l with
  | nil => exact absurd h (List.not_mem_nil _)
  | cons k rest ih =>
    rcases List.mem_cons.mp h with h1 | h1
    · simp [hasName, h1]
    · by_cases hk : n = k
      · simp [hasName, hk]
      · simp only [hasName, if_neg hk]
        exact ih h1

theorem csFind_of_mem_nodup {cs : List (String × DirTree)} {n : String}
    {c : DirTree} (hnd : namesNodup (cs.map Prod.fst) = true)
    (hmem : (n, c) ∈ cs) : csFind cs n = some c := by
  induction cs with
  | nil => exact absurd hmem (List.not_mem_nil _)
  | cons kv rest ih =>
    obtain ⟨k, v⟩ := kv
    simp only [List.map_cons, namesNodup, Bool.and_eq_true,
      Bool.not_eq_true'] at hnd
    rcases List.mem_cons.mp hmem with h1 | h1
    · obtain ⟨hn, hc⟩ := Prod.mk.injEq .. ▸ h1
      simp [csFind, hn, hc]
    · by_cases hk : n = k
      · subst hk
        have hmm2 : n ∈ rest.map Prod.fst := List.mem_map_of_mem Prod.fst h1
        have hcontra := hasName_of_mem hmm2
        rw [hnd.1] at hcontra
        exact Bool.noConfusion hcontra
      · simp only [csFind, if_neg hk]
        exact ih hnd.2 h1

theorem wfb_node {m : Nat} {cs : List (String × DirTree)}
    (h : (DirTree.node m cs).wfb = true) :
    namesNodup (cs.map Prod.fst) = true ∧ wfbListT cs = true := by
  simpa [DirTree.wfb, Bool.and_eq_true] using h

theorem wfbListT_cons {c : String × DirTree} {rest : List (String × DirTree)}
    (h : wfbListT (c :: rest) = true) :
    c.2.wfb = true ∧ wfbListT rest = true := by
  simpa [wfbListT, Bool.and_eq_true] using h

mutual

/-- Sweeping a subtree again, against any map that contains the entries
recorded by the previous sweep of that same subtree (with no shadowing
entries for its paths in front of them), emits nothing. -/
theorem sweepNode_again_silent : ∀ (last A B : List (List String × Nat))
    (p : List String) (t : DirTree), t.wfb = true →
    (∀ r m, mtimeAt t r = some m → lookupM A (p ++ r) = none) →
    (sweepNode (A ++ (sweepNode last p t).1 ++ B) p t).2 = []
  | last, A, B, p, .node mt cs => fun hwf hA => by
    obtain ⟨hnd, hwl⟩ := wfb_node hwf
    have h1 : lookupM A p = none := by
      have := hA [] mt (by simp [mtimeAt])
      simpa using this
    have h2 : lookupM (A ++ (sweepNode last p (.node mt cs)).1 ++ B) p
        = some mt := by
      rw [List.append_assoc, lookupM_append_left h1]
      show lookupM (((p, mt) :: _) ++ B) p = some mt
      rw [List.cons_append]
      simp [lookupM]
    show (match lookupM (A ++ (sweepNode last p (.node mt cs)).1 ++ B) p with
      | some x => if x = mt then [] else [p]
      | none => []) ++
      (sweepList (A ++ (sweepNode last p (.node mt cs)).1 ++ B) p cs).2 = []
    rw [h2]
    simp only [if_pos rfl, List.nil_append]
    have hM : A ++ (sweepNode last p (.node mt cs)).1 ++ B
        = (A ++ [(p, mt)]) ++ (sweepList last p cs).1 ++ B := by
      show A ++ ((p, mt) :: (sweepList last p cs).1) ++ B = _
      simp [List.append_assoc]
    rw [hM]
    refine sweepList_again_silent last (A ++ [(p, mt)]) B p cs hwl hnd ?_
    intro n c r m hmem hmt
    refine lookupM_append_none (hA (n :: r) m ?_) ?_
    · simp only [mtimeAt]
      rw [csFind_of_mem_nodup hnd hmem]
      exact hmt
    · simp [lookupM, ne_append_cons]

theorem sweepList_again_silent : ∀ (last A B : List (List String × Nat))
    (p : List String) (cs : List (String × DirTree)),
    wfbListT cs = true → namesNodup (cs.map Prod.fst) = true →
    (∀ n c r m, (n, c) ∈ cs → mtimeAt c r = some m →
      lookupM A (p ++ n :: r) = none) →
    (sweepList (A ++ (sweepList last p cs).1 ++ B) p cs).2 = []
  | last, A, B, p, [] => fun _ _ _ => rfl
  | last, A, B, p, (n, c) :: rest => fun hwl hnd hA => by
    obtain ⟨hwc, hwrest⟩ := wfbListT_cons hwl
    simp only [List.map_cons, namesNodup, Bool.and_eq_true,
      Bool.not_eq_true'] at hnd
    show (sweepNode (A ++ ((sweepNode last (p ++ [n]) c).1 ++
        (sweepList last p rest).1) ++ B) (p ++ [n]) c).2 ++
      (sweepList (A ++ ((sweepNode last (p ++ [n]) c).1 ++
        (sweepList last p rest).1) ++ B) p rest).2 = []
    have e1 : A ++ ((sweepNode last (p ++ [n]) c).1 ++
        (sweepList last p rest).1) ++ B
        = A ++ (sweepNode last (p ++ [n]) c).1 ++
          ((sweepList last p rest).1 ++ B) := by
      simp [List.append_assoc]
    have e2 : A ++ ((sweepNode last (p ++ [n]) c).1 ++
        (sweepList last p rest).1) ++ B
        = (A ++ (sweepNode last (p ++ [n]) c).1) ++
          (sweepList last p rest).1 ++ B := by
      simp [List.append_assoc]
    rw [e1]
    rw [sweepNode_again_silent last A ((sweepList last p rest).1 ++ B)
      (p ++ [n]) c hwc (fun r m hmt => by
        have := hA n c r m (List.mem_cons_self _ _) hmt
        simpa [List.append_assoc] using this)]
    rw [← e1, e2]
    rw [sweepList_again_silent last (A ++ (sweepNode last (p ++ [n]) c).1)
      B p rest hwrest hnd.2 (fun n' c' r m hmem hmt => by
        refine lookupM_append_none (hA n' c' r m (List.mem_cons_of_mem _ hmem) hmt) ?_
        refine lookupM_none_of_no_key ?_
        intro m'' hm''
        obtain ⟨r'', hr''⟩ := sweepNode_key_shape last (p ++ [n])
          (p ++ n' :: r) m'' c hm''
        rw [List.append_assoc] at hr''
        have hcons : n' :: r = n :: r'' := by
          have := List.append_cancel_left hr''
          simpa using this
        have hn' : n' = n := (List.cons.injEq .. ▸ hcons).1
        have hmm2 : n ∈ rest.map Prod.fst := by
          rw [← hn']
          exact List.mem_map_of_mem Prod.fst hmem
        have hcontra := hasName_of_mem hmm2
        rw [hnd.1] at hcontra
        exact Bool.noConfusion hcontra)]
    rfl

end

/-- C7: the first sweep of any directory tree records a baseline and emits
no change events, and a second sweep over the same unchanged tree emits no
change events either, for every well-formed tree (distinct sibling names,
as a real filesystem guarantees). -/
theorem c7_sweep_silent_on_unchanged_tree (t : DirTree) (h : t.wfb = true) :
    (sweepNode [] [] t).2 = [] ∧
    (sweepNode (sweepNode [] [] t).1 [] t).2 = [] := by
  constructor
  · exact sweepNode_baseline [] t
  · have := sweepNode_again_silent [] [] [] [] t h (fun r m _ => rfl)
    simpa using this

def c7tree : DirTree :=
  .node 5 [("a", .node 3 []), ("b", .node 7 [("c", .node 1 []), ("d", .node 2 [])])]

theorem c7_sweep_silent_witness :
    c7tree.wfb = true ∧
    ((sweepNode [] [] c7tree).2 = [] ∧
      (sweepNode (sweepNode [] [] c7tree).1 [] c7tree).2 = []) :=
  ⟨by decide, c7_sweep_silent_on_unchanged_tree c7tree (by decide)⟩

/-! ## Ordered directory representation: order and association list facts -/

theorem char_eq_of_toNat_eq {a b : Char} (h : a.toNat = b.toNat) : a = b := by
  rw [← Char.ofNat_toNat a, ← Char.ofNat_toNat b, h]

theorem keyLt_irrefl : ∀ l : List Char, keyLt l l = false
  | [] => rfl
  | a :: as => by
    simp only [keyLt, Nat.lt_irrefl, if_false]
    exact keyLt_irrefl as

theorem keyLt_trans : ∀ {a b c : List Char},
    keyLt a b = true → keyLt b c = true → keyLt a c = true
  | [], b, c, h1, h2 => by
    cases b with
    | nil => simp [keyLt] at h1
    | cons y ys =>
      cases c with
      | nil => simp [keyLt] at h2
      | cons z zs => rfl
  | a :: as, b, c, h1, h2 => by
    cases b with
    | nil => simp [keyLt] at h1
    | cons y ys =>
      cases c with
      | nil => simp [keyLt] at h2
      | cons z zs =>
        simp only [keyLt] at h1 h2 ⊢
        by_cases hay : a.toNat < y.toNat
        · by_cases hyz : y.toNat < z.toNat
          · rw [if_pos (Nat.lt_trans hay hyz)]
          · by_cases hzy : z.toNat < y.toNat
            · rw [if_neg hyz, if_pos hzy] at h2
              exact absurd h2 (by simp)
            · rw [if_pos (show a.toNat < z.toNat by omega)]
        · by_cases hya : y.toNat < a.toNat
          · rw [if_neg hay, if_pos hya] at h1
            exact absurd h1 (by simp)
          · rw [if_neg hay, if_neg hya] at h1
            by_cases hyz : y.toNat < z.toNat
            · rw [if_pos (show a.toNat < z.toNat by omega)]
            · by_cases hzy : z.toNat < y.toNat
              · rw [if_neg hyz, if_pos hzy] at h2
                exact absurd h2 (by simp)
              · rw [if_neg hyz, if_neg hzy] at h2
                rw [if_neg (show ¬ a.toNat < z.toNat by omega),
                  if_neg (show ¬ z.toNat < a.toNat by omega)]
                exact keyLt_trans h1 h2

theorem keyLt_asymm {a b : List Char} (h : keyLt a b = true) :
    keyLt b a = false := by
  by_cases hba : keyLt b a = true
  · have := keyLt_trans h hba
    rw [keyLt_irrefl a] at this
    exact Bool.noConfusion this
  · exact Bool.not_eq_true _ ▸ hba

theorem keyLt_total : ∀ {a b : List Char},
    keyLt a b = false → a ≠ b → keyLt b a = true
  | [], [], _, hne => absurd rfl hne
  | [], _ :: _, h, _ => by simp [keyLt] at h
  | _ :: _, [], _, _ => rfl
  | a :: as, b :: bs, h, hne => by
    simp only [keyLt] at h ⊢
    by_cases hab : a.toNat < b.toNat
    · rw [if_pos hab] at h
      exact absurd h (by simp)
    · by_cases hba : b.toNat < a.toNat
      · rw [if_pos hba]
      · have hc : a = b := char_eq_of_toNat_eq (by omega)
        subst hc
        rw [if_neg hab, if_neg hba] at h ⊢
        refine keyLt_total h ?_
        intro he
        exact hne (by rw [he])

theorem strLt_irrefl (s : String) : strLt s s = false := keyLt_irrefl s.data

theorem strLt_trans {a b c : String} (h1 : strLt a b = true)
    (h2 : strLt b c = true) : strLt a c = true := keyLt_trans h1 h2

theorem strLt_asymm {a b : String} (h : strLt a b = true) :
    strLt b a = false := keyLt_asymm h

theorem strLt_total {a b : String} (h : strLt a b = false) (hne : a ≠ b) :
    strLt b a = true := by
  refine keyLt_total h ?_
  intro he
  exact hne (String.ext he)

theorem strLt_ne {a b : String} (h : strLt a b = true) : a ≠ b := by
  intro he
  subst he
  rw [strLt_irrefl a] at h
  exact Bool.noConfusion h

theorem getChild_mem : ∀ {cs : List (String × FSNode)} {s : String}
    {v : FSNode}, getChild cs s = some v → (s, v) ∈ cs
  | [], _, _, h => by simp [getChild] at h
  | (k, w) :: rest, s, v, h => by
    by_cases hk : s = k
    · subst hk
      have hw : w = v := by simpa [getChild] using h
      subst hw
      exact List.mem_cons_self _ _
    · simp only [getChild, if_neg hk] at h
      exact List.mem_cons_of_mem _ (getChild_mem h)

theorem getChild_eq_none : ∀ {cs : List (String × FSNode)} {s : String},
    getChild cs s = none → ∀ v, (s, v) ∉ cs
  | [], _, _, v => by simp
  | (k, w) :: rest, s, h, v => by
    by_cases hk : s = k
    · subst hk
      simp [getChild] at h
    · simp only [getChild, if_neg hk] at h
      intro hmem
      rcases List.mem_cons.mp hmem with h1 | h1
      · exact hk (Prod.mk.injEq .. ▸ h1).1
      · exact getChild_eq_none h v h1

theorem sortedKeys_cons_forall : ∀ {k : String} {v : FSNode}
    {rest : List (String × FSNode)}, sortedKeys ((k, v) :: rest) = true →
    sortedKeys rest = true ∧ ∀ p ∈ rest, strLt k p.1 = true
  | _, _, [], _ => ⟨rfl, by simp⟩
  | k, v, (b, c) :: rest2, h => by
    have h' : strLt k b = true ∧ sortedKeys ((b, c) :: rest2) = true := by
      simpa [sortedKeys, Bool.and_eq_true] using h
    obtain ⟨ih1, ih2⟩ := sortedKeys_cons_forall h'.2
    refine ⟨h'.2, ?_⟩
    intro p hp
    rcases List.mem_cons.mp hp with h1 | h1
    · rw [h1]
      exact h'.1
    · exact strLt_trans h'.1 (ih2 p h1)

theorem sortedKeys_intro {k : String} {v : FSNode}
    {rest : List (String × FSNode)} (hall : ∀ p ∈ rest, strLt k p.1 = true)
    (hs : sortedKeys rest = true) : sortedKeys ((k, v) :: rest) = true := by
  cases rest with
  | nil => rfl
  | cons b r2 =>
    obtain ⟨b1, b2⟩ := b
    simp only [sortedKeys, Bool.and_eq_true]
    exact ⟨hall (b1, b2) (List.mem_cons_self _ _), hs⟩

theorem mem_insertChild : ∀ {cs : List (String × FSNode)} {s : String}
    {n : FSNode} {p : String × FSNode},
    p ∈ insertChild cs s n → p = (s, n) ∨ p ∈ cs
  | [], s, n, p, h => by simpa [insertChild] using h
  | (k, v) :: rest, s, n, p, h => by
    simp only [insertChild] at h
    by_cases h1 : strLt s k
    · rw [if_pos h1] at h
      rcases List.mem_cons.mp h with h2 | h2
      · exact Or.inl h2
      · exact Or.inr h2
    · rw [if_neg h1] at h
      by_cases h2 : s = k
      · rw [if_pos h2] at h
        rcases List.mem_cons.mp h with h3 | h3
        · exact Or.inl h3
        · exact Or.inr (List.mem_cons_of_mem _ h3)
      · rw [if_neg h2] at h
        rcases List.mem_cons.mp h with h3 | h3
        · exact Or.inr (h3 ▸ List.mem_cons_self _ _)
        · rcases mem_insertChild h3 with h4 | h4
          · exact Or.inl h4
          · exact Or.inr (List.mem_cons_of_mem _ h4)

theorem getChild_insertChild_self : ∀ (cs : List (String × FSNode))
    (s : String) (n : FSNode), getChild (insertChild cs s n) s = some n
  | [], s, n => by simp [insertChild, getChild]
  | (k, v) :: rest, s, n => by
    simp only [insertChild]
    by_cases h1 : strLt s k
    · rw [if_pos h1]
      simp [getChild]
    · rw [if_neg h1]
      by_cases h2 : s = k
      · rw [if_pos h2]
        simp [getChild]
      · rw [if_neg h2]
        simp only [getChild, if_neg h2]
        exact getChild_insertChild_self rest s n

theorem getChild_insertChild_ne : ∀ (cs : List (String × FSNode))
    (s t : String) (n : FSNode), t ≠ s →
    getChild (insertChild cs s n) t = getChild cs t
  | [], s, t, n, ht => by simp [insertChild, getChild, ht]
  | (k, v) :: rest, s, t, n, ht => by
    simp only [insertChild]
    by_cases h1 : strLt s k
    · rw [if_pos h1]
      simp only [getChild, if_neg ht]
    · rw [if_neg h1]
      by_cases h2 : s = k
      · subst h2
        rw [if_pos rfl]
        simp only [getChild, if_neg ht]
      · rw [if_neg h2]
        simp only [getChild]
        by_cases h3 : t = k
        · rw [if_pos h3, if_pos h3]
        · rw [if_neg h3, if_neg h3]
          exact getChild_insertChild_ne rest s t n ht

theorem insertChild_id : ∀ {cs : List (String × FSNode)} {s : String}
    {v : FSNode}, sortedKeys cs = true → getChild cs s = some v →
    insertChild cs s v = cs
  | [], s, v, _, h => by simp [getChild] at h
  | (k, w) :: rest, s, v, hs, h => by
    obtain ⟨hrest, hall⟩ := sortedKeys_cons_forall hs
    by_cases hk : s = k
    · subst hk
      have hw : w = v := by simpa [getChild] using h
      subst hw
      simp [insertChild, strLt_irrefl]
    · simp only [getChild, if_neg hk] at h
      have hmem : (s, v) ∈ rest := getChild_mem h
      have hks : strLt k s = true := hall (s, v) hmem
      have h1 : strLt s k = false := strLt_asymm hks
      simp only [insertChild, h1, Bool.false_eq_true, if_false, if_neg hk]
      rw [insertChild_id hrest h]

theorem removeChild_id : ∀ {cs : List (String × FSNode)} {s : String},
    getChild cs s = none → removeChild cs s = cs
  | [], _, _ => rfl
  | (k, w) :: rest, s, h => by
    by_cases hk : s = k
    · subst hk
      simp [getChild] at h
    · simp only [getChild, if_neg hk] at h
      simp [removeChild, Ne.symm hk, removeChild_id h]

theorem removeChild_insertChild : ∀ {cs : List (String × FSNode)}
    {s : String} {n : FSNode}, getChild cs s = none →
    removeChild (insertChild cs s n) s = cs
  | [], s, n, _ => by simp [insertChild, removeChild]
  | (k, w) :: rest, s, n, h => by
    by_cases hk : s = k
    · subst hk
      simp [getChild] at h
    · simp only [getChild, if_neg hk] at h
      simp only [insertChild]
      by_cases h1 : strLt s k
      · rw [if_pos h1]
        simp [removeChild, Ne.symm hk, removeChild_id h]
      · rw [if_neg h1, if_neg hk]
        simp [removeChild, Ne.symm hk, removeChild_insertChild h]

theorem mem_removeChild : ∀ {cs : List (String × FSNode)} {s : String}
    {p : String × FSNode}, p ∈ removeChild cs s → p ∈ cs
  | [], _, _, h => by simp [removeChild] at h
  | (k, v) :: rest, s, p, h => by
    simp only [removeChild] at h
    by_cases hk : k = s
    · rw [if_pos hk] at h
      exact List.mem_cons_of_mem _ (mem_removeChild h)
    · rw [if_neg hk] at h
      rcases List.mem_cons.mp h with h1 | h1
      · exact h1 ▸ List.mem_cons_self _ _
      · exact List.mem_cons_of_mem _ (mem_removeChild h1)

theorem insertChild_removeChild : ∀ {cs : List (String × FSNode)}
    {s : String} {v : FSNode}, sortedKeys cs = true →
    getChild cs s = some v → insertChild (removeChild cs s) s v = cs
  | [], s, v, _, h => by simp [getChild] at h
  | (k, w) :: rest, s, v, hs, h => by
    obtain ⟨hrest, hall⟩ := sortedKeys_cons_forall hs
    by_cases hk : s = k
    · subst hk
      have hw : w = v := by simpa [getChild] using h
      subst hw
      have hnone : getChild rest s = none := by
        rcases hg : getChild rest s with _ | u
        · rfl
        · have := hall (s, u) (getChild_mem hg)
          rw [strLt_irrefl] at this
          exact Bool.noConfusion this
      simp only [removeChild, if_pos rfl]
      rw [removeChild_id hnone]
      cases rest with
      | nil => rfl
      | cons b r2 =>
        obtain ⟨b1, b2⟩ := b
        have hb : strLt s b1 = true := hall (b1, b2) (List.mem_cons_self _ _)
        simp [insertChild, hb]
    · simp only [getChild, if_neg hk] at h
      have hks : strLt k s = true := hall (s, v) (getChild_mem h)
      simp only [removeChild, if_neg (Ne.symm hk)]
      simp only [insertChild, strLt_asymm hks, Bool.false_eq_true, if_false,
        if_neg hk]
      rw [insertChild_removeChild hrest h]

theorem insertChild_insertChild : ∀ (cs : List (String × FSNode))
    (s : String) (a b : FSNode),
    insertChild (insertChild cs s a) s b = insertChild cs s b
  | [], s, a, b => by simp [insertChild, strLt_irrefl]
  | (k, v) :: rest, s, a, b => by
    by_cases h1 : strLt s k
    · simp [insertChild, h1, strLt_irrefl]
    · by_cases h2 : s = k
      · subst h2
        simp [insertChild, h1, strLt_irrefl]
      · simp only [insertChild, if_neg h1, if_neg h2]
        rw [insertChild_insertChild rest s a b]

theorem sortedKeys_insertChild : ∀ {cs : List (String × FSNode)}
    {s : String} {n : FSNode}, sortedKeys cs = true →
    sortedKeys (insertChild cs s n) = true
  | [], _, _, _ => rfl
  | (k, v) :: rest, s, n, hs => by
    obtain ⟨hrest, hall⟩ := sortedKeys_cons_forall hs
    by_cases h1 : strLt s k
    · simp only [insertChild, if_pos h1]
      refine sortedKeys_intro ?_ hs
      intro p hp
      rcases List.mem_cons.mp hp with h2 | h2
      · rw [h2]
        exact h1
      · exact strLt_trans h1 (hall p h2)
    · by_cases h2 : s = k
      · subst h2
        simp only [insertChild, if_neg h1, if_pos rfl]
        exact sortedKeys_intro hall hrest
      · simp only [insertChild, if_neg h1, if_neg h2]
        refine sortedKeys_intro ?_ (sortedKeys_insertChild hrest)
        intro p hp
        rcases mem_insertChild hp with h3 | h3
        · rw [h3]
          exact strLt_total (Bool.not_eq_true _ ▸ h1) h2
        · exact hall p h3

theorem sortedKeys_removeChild : ∀ {cs : List (String × FSNode)}
    {s : String}, sortedKeys cs = true →
    sortedKeys (removeChild cs s) = true
  | [], _, _ => rfl
  | (k, v) :: rest, s, hs => by
    obtain ⟨hrest, hall⟩ := sortedKeys_cons_forall hs
    simp only [removeChild]
    by_cases hk : k = s
    · rw [if_pos hk]
      exact sortedKeys_removeChild hrest
    · rw [if_neg hk]
      refine sortedKeys_intro ?_ (sortedKeys_removeChild hrest)
      intro p hp
      exact hall p (mem_removeChild hp)

theorem getChild_removeChild_self : ∀ (cs : List (String × FSNode))
    (s : String), getChild (removeChild cs s) s = none
  | [], _ => rfl
  | (k, v) :: rest, s => by
    simp only [removeChild]
    by_cases hk : k = s
    · rw [if_pos hk]
      exact getChild_removeChild_self rest s
    · rw [if_neg hk]
      simp only [getChild, if_neg (Ne.symm hk)]
      exact getChild_removeChild_self rest s

theorem getChild_removeChild_ne : ∀ (cs : List (String × FSNode))
    (s t : String), t ≠ s → getChild (removeChild cs s) t = getChild cs t
  | [], _, _, _ => rfl
  | (k, v) :: rest, s, t, ht => by
    simp only [removeChild]
    by_cases hk : k = s
    · subst hk
      rw [if_pos rfl]
      simp only [getChild, if_neg ht]
      exact getChild_removeChild_ne rest k t ht
    · rw [if_neg hk]
      simp only [getChild]
      by_cases h2 : t = k
      · rw [if_pos h2, if_pos h2]
      · rw [if_neg h2, if_neg h2]
        exact getChild_removeChild_ne rest s t ht

theorem wf_dir {cs : List (String × FSNode)}
    (h : (FSNode.dir cs).wfb = true) :
    sortedKeys cs = true ∧ wfbList cs = true := by
  simpa [FSNode.wfb, Bool.and_eq_true] using h

theorem wfbList_mem : ∀ {cs : List (String × FSNode)} {k : String}
    {v : FSNode}, wfbList cs = true → (k, v) ∈ cs → v.wfb = true
  | [], _, _, _, hm => absurd hm (List.not_mem_nil _)
  | c :: rest, k, v, h, hm => by
    have h' : c.2.wfb = true ∧ wfbList rest = true := by
      simpa [wfbList, Bool.and_eq_true] using h
    rcases List.mem_cons.mp hm with h1 | h1
    · subst h1
      exact h'.1
    · exact wfbList_mem h'.2 h1

theorem wfbList_insertChild : ∀ {cs : List (String × FSNode)} {s : String}
    {n : FSNode}, wfbList cs = true → n.wfb = true →
    wfbList (insertChild cs s n) = true
  | [], s, n, _, hn => by simp [insertChild, wfbList, hn]
  | (k, v) :: rest, s, n, h, hn => by
    have h' : v.wfb = true ∧ wfbList rest = true := by
      simpa [wfbList, Bool.and_eq_true] using h
    simp only [insertChild]
    by_cases h1 : strLt s k
    · rw [if_pos h1]
      simp [wfbList, hn, h'.1, h'.2]
    · rw [if_neg h1]
      by_cases h2 : s = k
      · rw [if_pos h2]
        simp [wfbList, hn, h'.2]
      · rw [if_neg h2]
        simp only [wfbList, Bool.and_eq_true]
        exact ⟨h'.1, wfbList_insertChild h'.2 hn⟩

theorem wfbList_removeChild : ∀ {cs : List (String × FSNode)} {s : String},
    wfbList cs = true → wfbList (removeChild cs s) = true
  | [], _, _ => rfl
  | (k, v) :: rest, s, h => by
    have h' : v.wfb = true ∧ wfbList rest = true := by
      simpa [wfbList, Bool.and_eq_true] using h
    simp only [removeChild]
    by_cases hk : k = s
    · rw [if_pos hk]
      exact wfbList_removeChild h'.2
    · rw [if_neg hk]
      simp only [wfbList, Bool.and_eq_true]
      exact ⟨h'.1, wfbList_removeChild h'.2⟩

theorem lookup_wf : ∀ (p : List String) (fs n : FSNode),
    fs.wfb = true → lookup fs p = some n → n.wfb = true
  | [], fs, n, hwf, h => by
    simp only [lookup, Option.some.injEq] at h
    exact h ▸ hwf
  | s :: rest, .file c, n, _, h => by simp [lookup] at h
  | s :: rest, .dir cs, n, hwf, h => by
    simp only [lookup] at h
    rcases hg : getChild cs s with _ | c
    · rw [hg] at h
      exact Option.noConfusion h
    · rw [hg] at h
      exact lookup_wf rest c n
        (wfbList_mem (wf_dir hwf).2 (getChild_mem hg)) h

theorem insertAt_wf : ∀ (p : List String) (fs n fs' : FSNode),
    fs.wfb = true → n.wfb = true → insertAt fs p n = some fs' →
    fs'.wfb = true
  | [], fs, n, fs', _, hn, h => by
    simp only [insertAt, Option.some.injEq] at h
    exact h ▸ hn
  | [s], .file c, n, fs', _, _, h => by simp [insertAt] at h
  | [s], .dir cs, n, fs', hwf, hn, h => by
    simp only [insertAt, Option.some.injEq] at h
    subst h
    simp only [FSNode.wfb, Bool.and_eq_true]
    exact ⟨sortedKeys_insertChild (wf_dir hwf).1,
      wfbList_insertChild (wf_dir hwf).2 hn⟩
  | s :: s2 :: rest, .file c, n, fs', _, _, h => by simp [insertAt] at h
  | s :: s2 :: rest, .dir cs, n, fs', hwf, hn, h => by
    simp only [insertAt] at h
    rcases hg : getChild cs s with _ | c
    · rw [hg] at h
      exact Option.noConfusion h
    · rw [hg] at h
      dsimp only at h
      rcases hi : insertAt c (s2 :: rest) n with _ | c'
      · rw [hi] at h
        exact Option.noConfusion h
      · rw [hi] at h
        simp only [Option.map_some', Option.some.injEq] at h
        subst h
        have hcwf : c.wfb = true := wfbList_mem (wf_dir hwf).2 (getChild_mem hg)
        simp only [FSNode.wfb, Bool.and_eq_true]
        exact ⟨sortedKeys_insertChild (wf_dir hwf).1,
          wfbList_insertChild (wf_dir hwf).2
            (insertAt_wf (s2 :: rest) c n c' hcwf hn hi)⟩

theorem removeAt_wf : ∀ (p : List String) (fs fs' : FSNode),
    fs.wfb = true → removeAt fs p = some fs' → fs'.wfb = true
  | [], fs, fs', _, h => by simp [removeAt] at h
  | [s], .file c, fs', _, h => by simp [removeAt] at h
  | [s], .dir cs, fs', hwf, h => by
    simp only [removeAt] at h
    rcases hg : getChild cs s with _ | c
    · rw [hg] at h
      exact Option.noConfusion h
    · rw [hg] at h
      simp only [Option.some.injEq] at h
      subst h
      simp only [FSNode.wfb, Bool.and_eq_true]
      exact ⟨sortedKeys_removeChild (wf_dir hwf).1,
        wfbList_removeChild (wf_dir hwf).2⟩
  | s :: s2 :: rest, .file c, fs', _, h => by simp [removeAt] at h
  | s :: s2 :: rest, .dir cs, fs', hwf, h => by
    simp only [removeAt] at h
    rcases hg : getChild cs s with _ | c
    · rw [hg] at h
      exact Option.noConfusion h
    · rw [hg] at h
      dsimp only at h
      rcases hr : removeAt c (s2 :: rest) with _ | c'
      · rw [hr] at h
        exact Option.noConfusion h
      · rw [hr] at h
        simp only [Option.map_some', Option.some.injEq] at h
        subst h
        have hcwf : c.wfb = true := wfbList_mem (wf_dir hwf).2 (getChild_mem hg)
        simp only [FSNode.wfb, Bool.and_eq_true]
        exact ⟨sortedKeys_insertChild (wf_dir hwf).1,
          wfbList_insertChild (wf_dir hwf).2
            (removeAt_wf (s2 :: rest) c c' hcwf hr)⟩

theorem lookup_insertAt_self : ∀ (p : List String) (fs n fs' : FSNode),
    insertAt fs p n = some fs' → lookup fs' p = some n
  | [], fs, n, fs', h => by
    simp only [insertAt, Option.some.injEq] at h
    subst h
    simp [lookup]
  | [s], .file c, n, fs', h => by simp [insertAt] at h
  | [s], .dir cs, n, fs', h => by
    simp only [insertAt, Option.some.injEq] at h
    subst h
    simp [lookup, getChild_insertChild_self]
  | s :: s2 :: rest, .file c, n, fs', h => by simp [insertAt] at h
  | s :: s2 :: rest, .dir cs, n, fs', h => by
    simp only [insertAt] at h
    rcases hg : getChild cs s with _ | c
    · rw [hg] at h
      exact Option.noConfusion h
    · rw [hg] at h
      dsimp only at h
      rcases hi : insertAt c (s2 :: rest) n with _ | c'
      · rw [hi] at h
        exact Option.noConfusion h
      · rw [hi] at h
        simp only [Option.map_some', Option.some.injEq] at h
        subst h
        simp only [lookup, getChild_insertChild_self]
        exact lookup_insertAt_self (s2 :: rest) c n c' hi

theorem removeAt_insertAt : ∀ (p : List String) (fs n fs' : FSNode),
    fs.wfb = true → lookup fs p = none → insertAt fs p n = some fs' →
    removeAt fs' p = some fs
  | [], fs, n, fs', _, hl, _ => by simp [lookup] at hl
  | [s], .file c, n, fs', _, _, hi => by simp [insertAt] at hi
  | [s], .dir cs, n, fs', _, hl, hi => by
    simp only [lookup] at hl
    rcases hg : getChild cs s with _ | c
    · rw [hg] at hl
      simp only [insertAt, Option.some.injEq] at hi
      subst hi
      simp only [removeAt, getChild_insertChild_self]
      rw [removeChild_insertChild hg]
    · rw [hg] at hl
      simp [lookup] at hl
  | s :: s2 :: rest, .file c, n, fs', _, _, hi => by simp [insertAt] at hi
  | s :: s2 :: rest, .dir cs, n, fs', hwf, hl, hi => by
    simp only [insertAt] at hi
    rcases hg : getChild cs s with _ | c
    · rw [hg] at hi
      exact Option.noConfusion hi
    · rw [hg] at hi
      dsimp only at hi
      rcases hi2 : insertAt c (s2 :: rest) n with _ | c'
      · rw [hi2] at hi
        exact Option.noConfusion hi
      · rw [hi2] at hi
        simp only [Option.map_some', Option.some.injEq] at hi
        subst hi
        simp only [lookup, hg] at hl
        have hcwf : c.wfb = true := wfbList_mem (wf_dir hwf).2 (getChild_mem hg)
        simp only [removeAt, getChild_insertChild_self]
        rw [removeAt_insertAt (s2 :: rest) c n c' hcwf hl hi2]
        simp only [Option.map_some', Option.some.injEq]
        rw [insertChild_insertChild, insertChild_id (wf_dir hwf).1 hg]

theorem insertAt_removeAt : ∀ (p : List String) (fs n fs1 : FSNode),
    fs.wfb = true → lookup fs p = some n → removeAt fs p = some fs1 →
    insertAt fs1 p n = some fs
  | [], fs, n, fs1, _, _, hr => by simp [removeAt] at hr
  | [s], .file c, n, fs1, _, hl, _ => by simp [lookup] at hl
  | [s], .dir cs, n, fs1, hwf, hl, hr => by
    simp only [lookup] at hl
    rcases hg : getChild cs s with _ | c
    · rw [hg] at hl
      exact Option.noConfusion hl
    · rw [hg] at hl
      simp only [lookup, Option.some.injEq] at hl
      subst hl
      simp only [removeAt, hg, Option.some.injEq] at hr
      subst hr
      simp only [insertAt, Option.some.injEq]
      rw [insertChild_removeChild (wf_dir hwf).1 hg]
  | s :: s2 :: rest, .file c, n, fs1, _, hl, _ => by simp [lookup] at hl
  | s :: s2 :: rest, .dir cs, n, fs1, hwf, hl, hr => by
    simp only [lookup] at hl
    simp only [removeAt] at hr
    rcases hg : getChild cs s with _ | c
    · rw [hg] at hl
      exact Option.noConfusion hl
    · rw [hg] at hl hr
      dsimp only at hl hr
      rcases hr2 : removeAt c (s2 :: rest) with _ | c1
      · rw [hr2] at hr
        exact Option.noConfusion hr
      · rw [hr2] at hr
        simp only [Option.map_some', Option.some.injEq] at hr
        subst hr
        have hcwf : c.wfb = true := wfbList_mem (wf_dir hwf).2 (getChild_mem hg)
        simp only [insertAt, getChild_insertChild_self]
        rw [insertAt_removeAt (s2 :: rest) c n c1 hcwf hl hr2]
        simp only [Option.map_some', Option.some.injEq]
        rw [insertChild_insertChild, insertChild_id (wf_dir hwf).1 hg]

theorem lookup_none_removeAt : ∀ (p q : List String) (fs fs1 : FSNode),
    lookup fs q = none → removeAt fs p = some fs1 → lookup fs1 q = none
  | [], _, fs, fs1, _, hr => by simp [removeAt] at hr
  | [s], q, .file c, fs1, _, hr => by simp [removeAt] at hr
  | [s], q, .dir cs, fs1, hl, hr => by
    simp only [removeAt] at hr
    rcases hg : getChild cs s with _ | c
    · rw [hg] at hr
      exact Option.noConfusion hr
    · rw [hg] at hr
      simp only [Option.some.injEq] at hr
      subst hr
      cases q with
      | nil => simp [lookup] at hl
      | cons t qs =>
        simp only [lookup] at hl ⊢
        by_cases ht : t = s
        · subst ht
          rw [getChild_removeChild_self]
        · rw [getChild_removeChild_ne cs s t ht]
          rcases hg2 : getChild cs t with _ | c2
          · rfl
          · rw [hg2] at hl
            exact hl
  | s :: s2 :: rest, q, .file c, fs1, _, hr => by simp [removeAt] at hr
  | s :: s2 :: rest, q, .dir cs, fs1, hl, hr => by
    simp only [removeAt] at hr
    rcases hg : getChild cs s with _ | c
    · rw [hg] at hr
      exact Option.noConfusion hr
    · rw [hg] at hr
      dsimp only at hr
      rcases hr2 : removeAt c (s2 :: rest) with _ | c1
      · rw [hr2] at hr
        exact Option.noConfusion hr
      · rw [hr2] at hr
        simp only [Option.map_some', Option.some.injEq] at hr
        subst hr
        cases q with
        | nil => simp [lookup] at hl
        | cons t qs =>
          simp only [lookup] at hl ⊢
          by_cases ht : t = s
          · subst ht
            rw [getChild_insertChild_self]
            rw [hg] at hl
            exact lookup_none_removeAt (s2 :: rest) qs c c1 hl hr2
          · rw [getChild_insertChild_ne cs s t c1 ht]
            rcases hg2 : getChild cs t with _ | c2
            · rfl
            · rw [hg2] at hl
              exact hl

/-- A successful rename is reversed exactly by renaming back: the reverse
rename succeeds and returns the original tree. -/
theorem renameFS_roundtrip {fs fs' : FSNode} {old new : List String}
    {n : FSNode} (hwf : fs.wfb = true) (hl : lookup fs old = some n)
    (hnew : lookup fs new = none) (h : renameFS fs old new = .ok fs') :
    lookup fs' new = some n ∧ renameFS fs' new old = .ok fs := by
  unfold renameFS at h
  rw [hl] at h
  dsimp only at h
  rcases hr : removeAt fs old with _ | fs1
  · rw [hr] at h
    exact Except.noConfusion h
  · rw [hr] at h
    dsimp only at h
    rcases hi : insertAt fs1 new n with _ | fs2
    · rw [hi] at h
      exact Except.noConfusion h
    · rw [hi] at h
      simp only [Except.ok.injEq] at h
      subst h
      have hnew1 : lookup fs1 new = none :=
        lookup_none_removeAt old new fs fs1 hnew hr
      have hfs1wf : fs1.wfb = true := removeAt_wf old fs fs1 hwf hr
      have h1 : lookup fs2 new = some n := lookup_insertAt_self new fs1 n fs2 hi
      have h2 : removeAt fs2 new = some fs1 :=
        removeAt_insertAt new fs1 n fs2 hfs1wf hnew1 hi
      have h3 : insertAt fs1 old n = some fs :=
        insertAt_removeAt old fs n fs1 hwf hl hr
      refine ⟨h1, ?_⟩
      unfold renameFS
      rw [h1]
      dsimp only
      rw [h2]
      dsimp only
      rw [h3]

theorem renameFS_wf {fs fs' : FSNode} {old new : List String}
    (hwf : fs.wfb = true) (h : renameFS fs old new = .ok fs') :
    fs'.wfb = true := by
  unfold renameFS at h
  rcases hl : lookup fs old with _ | n
  · rw [hl] at h
    exact Except.noConfusion h
  · rw [hl] at h
    dsimp only at h
    rcases hr : removeAt fs old with _ | fs1
    · rw [hr] at h
      exact Except.noConfusion h
    · rw [hr] at h
      dsimp only at h
      rcases hi : insertAt fs1 new n with _ | fs2
      · rw [hi] at h
        exact Except.noConfusion h
      · rw [hi] at h
        simp only [Except.ok.injEq] at h
        subst h
        exact insertAt_wf new fs1 n fs2 (removeAt_wf old fs fs1 hwf hr)
          (lookup_wf old fs n hwf hl) hi

/-- Anatomy of a successful rename request: the checks that passed and the
state it leaves behind. -/
theorem renameOp_success_anatomy {st st' : ServerState} {root : List String}
    {p nn : String} {em : List String}
    (h : renameOp st root p nn = (st', .success [], em)) :
    (∃ n, lookup st.fs (safeJoin root p) = some n) ∧
    lookup st.fs (renameDest (safeJoin root p) (trimStr nn)) = none ∧
    renameFS st.fs (safeJoin root p)
      (renameDest (safeJoin root p) (trimStr nn)) = .ok st'.fs ∧
    st'.lastOperation = some (.rename (safeJoin root p)
      (renameDest (safeJoin root p) (trimStr nn))) := by
  unfold renameOp at h
  split at h
  · simp at h
  · split at h
    · simp at h
    · split at h
      · simp at h
      · split at h
        · simp at h
        · split at h
          · simp at h
          · rename_i h1 h2 h3 h4 h5
            split at h
            · rename_i fs2 h6
              rw [Prod.mk.injEq, Prod.mk.injEq] at h
              obtain ⟨hst, _, _⟩ := h
              subst hst
              refine ⟨?_, ?_, h6, rfl⟩
              · have h4' : existsFS st.fs (safeJoin root p) = true := by
                  rcases hx : existsFS st.fs (safeJoin root p) with _ | _
                  · rw [hx] at h4
                    simp at h4
                  · rfl
                rcases hx : lookup st.fs (safeJoin root p) with _ | n
                · rw [existsFS, hx] at h4'
                  simp at h4'
                · exact ⟨n, rfl⟩
              · have h5' : existsFS st.fs
                    (renameDest (safeJoin root p) (trimStr nn)) = false := by
                  rcases hx : existsFS st.fs
                      (renameDest (safeJoin root p) (trimStr nn)) with _ | _
                  · rfl
                  · rw [hx] at h5
                    simp at h5
                rcases hx : lookup st.fs
                    (renameDest (safeJoin root p) (trimStr nn)) with _ | n
                · rfl
                · rw [existsFS, hx] at h5'
                  simp at h5'
            · simp at h

/-- After any successful rename, the undo handler renames back and returns
the exact pre-rename state: an entry sits at the old path again, nothing is
at the new path, and the slot is cleared. -/
theorem rename_undo_restores {st st' : ServerState} {root : List String}
    {p nn : String} {em : List String} (hwf : st.fs.wfb = true)
    (h : renameOp st root p nn = (st', .success [], em)) :
    ∃ old new n, st'.lastOperation = some (.rename old new) ∧
      lookup st.fs old = some n ∧ lookup st.fs new = none ∧
      undoOp st' = ({ fs := st.fs, lastOperation := none }, .success [], [""]) := by
  obtain ⟨⟨n, hold⟩, hnew, hren, hslot⟩ := renameOp_success_anatomy h
  obtain ⟨hlook, hback⟩ := renameFS_roundtrip hwf hold hnew hren
  refine ⟨_, _, n, hslot, hold, hnew, ?_⟩
  have hex : existsFS st'.fs (renameDest (safeJoin root p) (trimStr nn))
      = true := by
    rw [existsFS, hlook]
    rfl
  have hua : undoApply st'.fs (.rename (safeJoin root p)
      (renameDest (safeJoin root p) (trimStr nn))) = (st.fs, none) := by
    simp only [undoApply, hex, if_true, hback]
  unfold undoOp
  rw [hslot]
  dsimp only
  rw [hua]

theorem renameOp_success_wf {st st' : ServerState} {root : List String}
    {p nn : String} {em : List String} (hwf : st.fs.wfb = true)
    (h : renameOp st root p nn = (st', .success [], em)) :
    st'.fs.wfb = true := by
  obtain ⟨_, _, hren, _⟩ := renameOp_success_anatomy h
  exact renameFS_wf hwf hren

/-- C6: after a successful Rename(old, new), an immediate undo restores the
entry at the old path, leaves nothing at the new path, and returns the tree
to its exact pre-rename state; after two consecutive successful renames, a
single undo reverses only the second, leaving the state of the first rename
in effect. -/
theorem c6_rename_then_undo_roundtrip (st st' : ServerState)
    (root : List String) (p nn : String) (em : List String)
    (hwf : st.fs.wfb = true)
    (h : renameOp st root p nn = (st', .success [], em)) :
    (∃ old new n, st'.lastOperation = some (.rename old new) ∧
      lookup st.fs old = some n ∧ lookup st.fs new = none ∧
      undoOp st' = ({ fs := st.fs, lastOperation := none },
        .success [], [""])) ∧
    (∀ st2 p2 nn2 em2, renameOp st' root p2 nn2 = (st2, .success [], em2) →
      undoOp st2 = ({ fs := st'.fs, lastOperation := none },
        .success [], [""])) := by
  refine ⟨rename_undo_restores hwf h, ?_⟩
  intro st2 p2 nn2 em2 h2
  obtain ⟨_, _, _, _, _, _, h4⟩ :=
    rename_undo_restores (renameOp_success_wf hwf h) h2
  exact h4

def c6st0 : ServerState :=
  ⟨.dir [("uploads", .dir [("a.txt", .file "x"), ("c.txt", .file "y")])], none⟩

def c6st1 : ServerState := (renameOp c6st0 ["uploads"] "a.txt" "b.txt").1

def c6st2 : ServerState := (renameOp c6st1 ["uploads"] "c.txt" "d.txt").1

theorem c6_rename_then_undo_roundtrip_witness :
    c6st0.fs.wfb = true ∧
    undoOp c6st1 = ({ fs := c6st0.fs, lastOperation := none },
      .success [], [""]) ∧
    undoOp c6st2 = ({ fs := c6st1.fs, lastOperation := none },
      .success [], [""]) := by
  have hmain := c6_rename_then_undo_roundtrip c6st0 c6st1 ["uploads"]
    "a.txt" "b.txt" ["."] (by decide) (by decide)
  obtain ⟨⟨_, _, _, _, _, _, h4⟩, hsecond⟩ := hmain
  exact ⟨by decide, h4, hsecond c6st2 "c.txt" "d.txt" ["."] (by decide)⟩

theorem removeAt_isSome : ∀ (q : List String) (x : String) (fs n : FSNode),
    lookup fs (q ++ [x]) = some n → ∃ fs1, removeAt fs (q ++ [x]) = some fs1
  | [], x, .file c, n, h => by simp [lookup] at h
  | [], x, .dir cs, n, h => by
    simp only [List.nil_append, lookup] at h
    rcases hg : getChild cs x with _ | c
    · rw [hg] at h
      exact Option.noConfusion h
    · exact ⟨.dir (removeChild cs x), by simp [removeAt, hg]⟩
  | t :: q', x, .file c, n, h => by simp [lookup] at h
  | t :: q', x, .dir cs, n, h => by
    rw [List.cons_append] at h ⊢
    simp only [lookup] at h
    rcases hg : getChild cs t with _ | c
    · rw [hg] at h
      exact Option.noConfusion h
    · rw [hg] at h
      obtain ⟨c1, hc1⟩ := removeAt_isSome q' x c n h
      refine ⟨.dir (insertChild cs t c1), ?_⟩
      cases q' with
      | nil =>
        simp only [List.nil_append] at hc1 ⊢
        simp [removeAt, hg, hc1]
      | cons u q2 =>
        rw [List.cons_append] at hc1 ⊢
        simp [removeAt, hg, hc1]

theorem insertAt_sibling : ∀ (q : List String) (x y : String)
    (fs fs1 n : FSNode), removeAt fs (q ++ [x]) = some fs1 →
    ∃ fs2, insertAt fs1 (q ++ [y]) n = some fs2
  | [], x, y, .file c, fs1, n, h => by simp [removeAt] at h
  | [], x, y, .dir cs, fs1, n, h => by
    simp only [List.nil_append, removeAt] at h
    rcases hg : getChild cs x with _ | c
    · rw [hg] at h
      exact Option.noConfusion h
    · rw [hg] at h
      simp only [Option.some.injEq] at h
      subst h
      exact ⟨.dir (insertChild (removeChild cs x) y n), by simp [insertAt]⟩
  | t :: q', x, y, .file c, fs1, n, h => by
    rw [List.cons_append] at h
    simp [removeAt] at h
  | t :: q', x, y, .dir cs, fs1, n, h => by
    rw [List.cons_append] at h ⊢
    have hsplit : ∃ c c1, getChild cs t = some c ∧
        removeAt c (q' ++ [x]) = some c1 ∧
        fs1 = .dir (insertChild cs t c1) := by
      cases q' with
      | nil =>
        simp only [List.nil_append, removeAt] at h
        rcases hg : getChild cs t with _ | c
        · rw [hg] at h
          exact Option.noConfusion h
        · rw [hg] at h
          dsimp only at h
          rcases hr : removeAt c [x] with _ | c1
          · rw [hr] at h
            exact Option.noConfusion h
          · rw [hr] at h
            simp only [Option.map_some', Option.some.injEq] at h
            exact ⟨c, c1, rfl, by simpa using hr, h.symm⟩
      | cons u q2 =>
        rw [List.cons_append] at h
        simp only [removeAt] at h
        rcases hg : getChild cs t with _ | c
        · rw [hg] at h
          exact Option.noConfusion h
        · rw [hg] at h
          dsimp only at h
          rcases hr : removeAt c (u :: (q2 ++ [x])) with _ | c1
          · rw [hr] at h
            exact Option.noConfusion h
          · rw [hr] at h
            simp only [Option.map_some', Option.some.injEq] at h
            exact ⟨c, c1, rfl, by rw [List.cons_append]; exact hr, h.symm⟩
    obtain ⟨c, c1, hg, hr, hfs1⟩ := hsplit
    obtain ⟨c2, hc2⟩ := insertAt_sibling q' x y c c1 n hr
    subst hfs1
    refine ⟨.dir (insertChild (insertChild cs t c1) t c2), ?_⟩
    cases q' with
    | nil =>
      simp only [List.nil_append] at hc2 ⊢
      simp [insertAt, getChild_insertChild_self, hc2]
    | cons u q2 =>
      rw [List.cons_append] at hc2 ⊢
      simp [insertAt, getChild_insertChild_self, hc2]

/-- C10: a dot-named entry is omitted from the directory listing, yet the
download, preview, delete and rename handlers addressed at its exact
relative path locate it and act on it normally: hiding only filters the
listing output. -/
theorem c10_hidden_filters_listing_only (fs : FSNode)
    (slot : Option UndoRecord) (root parent : List String)
    (p q nn name content : String) (names : List String)
    (hsplit : safeJoin root p = parent ++ [name])
    (hdot : isHiddenName name = true)
    (hfile : lookup fs (parent ++ [name]) = some (.file content))
    (hsafe : isSafePath (parent ++ [name]) root = true)
    (hlist : listNamesOp fs root q "" = some names)
    (hmime : mimeIsNonText name = false)
    (hvp : isValidPath p = true)
    (hnn1 : ¬ trimStr nn = "")
    (hnn2 : isValidFileName (trimStr nn) = true)
    (hdest : renameDest (parent ++ [name]) (trimStr nn)
      = parent ++ [trimStr nn])
    (hnocol : lookup fs (parent ++ [trimStr nn]) = none) :
    name ∉ names ∧
    downloadOp fs root p = .success [content] ∧
    previewOp fs root p = .success [String.mk (content.data.take 10000)] ∧
    (deleteOp ⟨fs, slot⟩ root p).2.1 = .success [] ∧
    (renameOp ⟨fs, slot⟩ root p nn).2.1 = .success [] := by
  have hsafe' : isSafePath (safeJoin root p) root = true := by
    rw [hsplit]
    exact hsafe
  have hfile' : lookup fs (safeJoin root p) = some (.file content) := by
    rw [hsplit]
    exact hfile
  refine ⟨?_, ?_, ?_, ?_, ?_⟩
  · intro hmem
    unfold listNamesOp at hlist
    split at hlist
    · exact Option.noConfusion hlist
    · split at hlist
      · exact Option.noConfusion hlist
      · split at hlist
        · exact Option.noConfusion hlist
        · simp only [Option.some.injEq] at hlist
          subst hlist
          exact absurd hmem (List.not_mem_nil _)
        · simp only [Option.some.injEq] at hlist
          subst hlist
          have := (List.mem_filter.mp hmem).2
          simp only [Bool.and_eq_true, Bool.not_eq_true'] at this
          rw [hdot] at this
          exact Bool.noConfusion this.2
  · unfold downloadOp
    rw [show (!isSafePath (safeJoin root p) root) = false from by
      rw [hsafe']; rfl, if_neg Bool.false_ne_true]
    rw [hfile']
  · unfold previewOp
    rw [show (!isSafePath (safeJoin root p) root) = false from by
      rw [hsafe']; rfl, if_neg Bool.false_ne_true]
    rw [hfile']
    dsimp only
    rw [hsplit]
    rw [show (parent ++ [name]).getLastD "" = name from
      List.getLastD_concat .. ]
    rw [hmime, if_neg Bool.false_ne_true]
  · obtain ⟨fs1, hrem⟩ := removeAt_isSome parent name fs (.file content) hfile
    unfold deleteOp
    rw [show (!isValidPath p) = false from by rw [hvp]; rfl,
      if_neg Bool.false_ne_true]
    rw [show (!isSafePath (safeJoin root p) root) = false from by
      rw [hsafe']; rfl, if_neg Bool.false_ne_true]
    rw [hfile']
    dsimp only
    have hun : unlinkFS fs (safeJoin root p) = .ok fs1 := by
      unfold unlinkFS
      rw [hfile', hsplit, hrem]
    rw [hun]
  · obtain ⟨fs1, hrem⟩ := removeAt_isSome parent name fs (.file content) hfile
    obtain ⟨fs2, hins⟩ := insertAt_sibling parent name (trimStr nn) fs fs1
      (.file content) hrem
    unfold renameOp
    rw [if_neg hnn1]
    rw [show (!(isValidFileName (trimStr nn) && isValidPath p)) = false from by
      rw [hnn2, hvp]; rfl, if_neg Bool.false_ne_true]
    rw [show (!isSafePath (safeJoin root p) root) = false from by
      rw [hsafe']; rfl, if_neg Bool.false_ne_true]
    rw [show (!existsFS (ServerState.mk fs slot).fs (safeJoin root p)) = false
        from by rw [existsFS, hfile']; rfl, if_neg Bool.false_ne_true]
    rw [show existsFS (ServerState.mk fs slot).fs
        (renameDest (safeJoin root p) (trimStr nn)) = false from by
      rw [hsplit, hdest, existsFS, hnocol]; rfl, if_neg Bool.false_ne_true]
    have hren : renameFS fs (safeJoin root p)
        (renameDest (safeJoin root p) (trimStr nn)) = .ok fs2 := by
      unfold renameFS
      rw [hfile', hsplit, hrem]
      dsimp only
      rw [hdest, hins]
    rw [hren]

def c10fs : FSNode :=
  .dir [("uploads", .dir [(".secret", .file "hidden data"),
    ("vis.txt", .file "visible")])]

theorem c10_hidden_filters_listing_only_witness :
    listNamesOp c10fs ["uploads"] "" "" = some ["vis.txt"] ∧
    ".secret" ∉ ["vis.txt"] ∧
    downloadOp c10fs ["uploads"] ".secret" = .success ["hidden data"] ∧
    (deleteOp ⟨c10fs, none⟩ ["uploads"] ".secret").2.1 = .success [] := by
  have hm := c10_hidden_filters_listing_only c10fs none ["uploads"]
    ["uploads"] ".secret" "" "renamed.txt" ".secret" "hidden data"
    ["vis.txt"] (by decide) (by decide) (by decide) (by decide) (by decide)
    (by decide) (by decide) (by decide) (by decide) (by decide) (by decide)
  exact ⟨by decide, hm.1, hm.2.1, hm.2.2.2.1⟩

/-! ## Claim C3: decimal numerals and the collision loop

The candidate names of the collision loop embed the decimal numeral of the
counter.  To see that distinct counters give distinct names we prove that
the decimal rendering of Nat.repr is injective, via a reference digit
function and a decoding function. -/

def decDigits (n : Nat) : List Char :=
  if n < 10 then [Nat.digitChar n]
  else decDigits (n / 10) ++ [Nat.digitChar (n % 10)]
termination_by n
decreasing_by
  exact Nat.div_lt_self (by omega) (by omega)

def charDigitVal (c : Char) : Nat := c.toNat - 48

def val10 (l : List Char) : Nat :=
  l.foldl (fun a c => a * 10 + charDigitVal c) 0

theorem digitChar_val {d : Nat} (hd : d < 10) :
    charDigitVal (Nat.digitChar d) = d := by
  interval_cases d <;> decide

theorem toDigitsCore_eq_decDigits : ∀ (fuel n : Nat) (ds : List Char),
    n < 10 ^ fuel → 0 < fuel →
    Nat.toDigitsCore 10 fuel n ds = decDigits n ++ ds := by
  intro fuel
  induction fuel with
  | zero => intro n ds _ h0; exact absurd h0 (by omega)
  | succ f ih =>
    intro n ds hlt _
    simp only [Nat.toDigitsCore]
    by_cases hz : n / 10 = 0
    · rw [if_pos hz]
      have hn : n < 10 := by omega
      rw [decDigits, if_pos hn]
      have hm : n % 10 = n := by omega
      rw [hm]
      rfl
    · rw [if_neg hz]
      have hn : ¬ n < 10 := by omega
      have hfpos : 0 < f := by
        rcases Nat.eq_zero_or_pos f with h0 | h0
        · subst h0
          have : (10 : Nat) ^ 1 = 10 := by norm_num
          rw [this] at hlt
          omega
        · exact h0
      have hdiv : n / 10 < 10 ^ f := by
        refine (Nat.div_lt_iff_lt_mul (by omega)).mpr ?_
        rw [← pow_succ]
        exact hlt
      have hrhs : decDigits n
          = decDigits (n / 10) ++ [Nat.digitChar (n % 10)] := by
        rw [decDigits]
        rw [if_neg hn]
      rw [ih (n / 10) (Nat.digitChar (n % 10) :: ds) hdiv hfpos, hrhs,
        List.append_assoc]
      rfl

theorem toDigits_eq_decDigits (n : Nat) :
    Nat.toDigits 10 n = decDigits n := by
  have h1 : n < 10 ^ (n + 1) := by
    calc n < 10 ^ n := Nat.lt_pow_self (by omega) n
    _ ≤ 10 ^ (n + 1) := Nat.pow_le_pow_right (by omega) (by omega)
  have := toDigitsCore_eq_decDigits (n + 1) n [] h1 (by omega)
  simpa [Nat.toDigits] using this

theorem val10_decDigits (n : Nat) : val10 (decDigits n) = n := by
  induction n using Nat.strong_induction_on with
  | _ n ih =>
    by_cases h : n < 10
    · rw [decDigits, if_pos h]
      show (0 * 10 + charDigitVal (Nat.digitChar n)) = n
      rw [digitChar_val h]
      omega
    · rw [decDigits, if_neg h]
      show val10 (decDigits (n / 10) ++ [Nat.digitChar (n % 10)]) = n
      rw [val10, List.foldl_append]
      show (val10 (decDigits (n / 10))) * 10 +
        charDigitVal (Nat.digitChar (n % 10)) = n
      rw [ih (n / 10) (Nat.div_lt_self (by omega) (by omega)),
        digitChar_val (by omega : n % 10 < 10)]
      omega

theorem nat_repr_inj : ∀ {m n : Nat}, Nat.repr m = Nat.repr n → m = n := by
  intro m n h
  have hd : Nat.toDigits 10 m = Nat.toDigits 10 n := congrArg String.data h
  rw [toDigits_eq_decDigits, toDigits_eq_decDigits] at hd
  calc m = val10 (decDigits m) := (val10_decDigits m).symm
  _ = val10 (decDigits n) := by rw [hd]
  _ = n := val10_decDigits n

theorem extSplit_append (s : String) :
    (extSplit s).1.data ++ (extSplit s).2.data = s.data := by
  rcases h : lastDotIdxAux s.data 0 none with _ | i
  · simp [extSplit, h]
  · simp [extSplit, h, List.take_append_drop]

theorem candidateName_succ_data (orig : String) (k : Nat) :
    (candidateName orig (k + 1)).data
      = (extSplit orig).1.data ++
        '_' :: ((Nat.repr (k + 1)).data ++ (extSplit orig).2.data) := by
  show ((extSplit orig).1 ++ "_" ++ Nat.repr (k + 1) ++ (extSplit orig).2).data = _
  simp [String.data_append, List.append_assoc]

theorem candidateName_inj (orig : String) : ∀ {i j : Nat},
    candidateName orig i = candidateName orig j → i = j
  | 0, 0, _ => rfl
  | 0, j + 1, h => by
    exfalso
    have hdata := congrArg String.data h
    rw [candidateName_succ_data] at hdata
    have hdata2 : (extSplit orig).1.data ++ (extSplit orig).2.data
        = (extSplit orig).1.data ++
          '_' :: ((Nat.repr (j + 1)).data ++ (extSplit orig).2.data) := by
      rw [extSplit_append]
      exact hdata
    have hlen := congrArg List.length hdata2
    simp [List.length_append] at hlen
    omega
  | i + 1, 0, h => by
    exfalso
    have hdata := congrArg String.data h
    rw [candidateName_succ_data] at hdata
    have hdata2 : (extSplit orig).1.data ++
        '_' :: ((Nat.repr (i + 1)).data ++ (extSplit orig).2.data)
        = (extSplit orig).1.data ++ (extSplit orig).2.data := by
      rw [extSplit_append]
      exact hdata
    have hlen := congrArg List.length hdata2
    simp [List.length_append] at hlen
    omega
  | i + 1, j + 1, h => by
    have hdata := congrArg String.data h
    rw [candidateName_succ_data, candidateName_succ_data] at hdata
    have h2 := List.append_cancel_left hdata
    have h3 := (List.cons.injEq .. ▸ h2).2
    have h4 := List.append_cancel_right h3
    have h5 : Nat.repr (i + 1) = Nat.repr (j + 1) := String.ext h4
    have h6 := nat_repr_inj h5
    omega

theorem mem_of_hasName : ∀ {l : List String} {n : String},
    hasName l n = true → n ∈ l
  | [], n, h => by simp [hasName] at h
  | k :: rest, n, h => by
    by_cases hk : n = k
    · exact hk ▸ List.mem_cons_self _ _
    · simp only [hasName, if_neg hk] at h
      exact List.mem_cons_of_mem _ (mem_of_hasName h)

/-- The collision loop returns the first candidate name, in counter order,
that is absent from the destination directory. -/
theorem findFreeName_spec : ∀ (fuel k : Nat) (occ : List String)
    (orig : String),
    (∃ j, k ≤ j ∧ j < k + fuel ∧
      hasName occ (candidateName orig j) = false) →
    ∃ j, k ≤ j ∧ findFreeName occ orig k fuel = candidateName orig j ∧
      hasName occ (candidateName orig j) = false ∧
      ∀ i, k ≤ i → i < j → hasName occ (candidateName orig i) = true := by
  intro fuel
  induction fuel with
  | zero =>
    intro k occ orig h
    obtain ⟨j, hj1, hj2, _⟩ := h
    exact absurd hj2 (by omega)
  | succ f ih =>
    intro k occ orig h
    obtain ⟨j, hj1, hj2, hj3⟩ := h
    by_cases hk : hasName occ (candidateName orig k) = true
    · have hjk : j ≠ k := by
        intro he
        subst he
        rw [hj3] at hk
        exact Bool.noConfusion hk
      obtain ⟨j', hj'1, hj'2, hj'3, hj'4⟩ :=
        ih (k + 1) occ orig ⟨j, by omega, by omega, hj3⟩
      refine ⟨j', by omega, ?_, hj'3, ?_⟩
      · simp only [findFreeName]
        rw [if_pos hk]
        exact hj'2
      · intro i hi1 hi2
        rcases Nat.eq_or_lt_of_le hi1 with he | hlt
        · rw [← he]
          exact hk
        · exact hj'4 i (by omega) hi2
    · refine ⟨k, Nat.le_refl k, ?_, ?_, ?_⟩
      · simp only [findFreeName]
        rw [if_neg hk]
      · rcases hb : hasName occ (candidateName orig k) with _ | _
        · rfl
        · exact absurd hb hk
      · intro i h1 h2
        omega

/-- Among the first length+1 candidate names at least one is absent from
the directory: the candidates are pairwise distinct. -/
theorem exists_free_candidate (occ : List String) (orig : String) :
    ∃ j, j ≤ occ.length ∧ hasName occ (candidateName orig j) = false := by
  by_contra hcon
  push_neg at hcon
  have hsub : ((List.range (occ.length + 1)).map (candidateName orig)) ⊆ occ := by
    intro x hx
    obtain ⟨j, hj, hxe⟩ := List.mem_map.mp hx
    have hjlt := List.mem_range.mp hj
    have hne := hcon j (by omega)
    have htrue : hasName occ (candidateName orig j) = true := by
      rcases hb : hasName occ (candidateName orig j) with _ | _
      · exact absurd hb hne
      · rfl
    exact hxe ▸ mem_of_hasName htrue
  have hnd : ((List.range (occ.length + 1)).map (candidateName orig)).Nodup :=
    (List.nodup_range _).map (fun _ _ hab => candidateName_inj orig hab)
  have hlen := (List.subperm_of_subset hnd hsub).length_le
  simp at hlen

theorem getChild_of_not_hasName : ∀ {cs : List (String × FSNode)}
    {x : String}, hasName (cs.map Prod.fst) x = false → getChild cs x = none
  | [], _, _ => rfl
  | (k, v) :: rest, x, h => by
    simp only [List.map_cons, hasName] at h
    by_cases hk : x = k
    · rw [if_pos hk] at h
      exact Bool.noConfusion h
    · rw [if_neg hk] at h
      simp only [getChild, if_neg hk]
      exact getChild_of_not_hasName h

theorem lookup_append_last : ∀ (d : List String) (fs : FSNode) (x : String),
    lookup fs (d ++ [x]) = (match lookup fs d with
      | some (.dir cs) => getChild cs x
      | _ => none)
  | [], .file c, x => by simp [lookup]
  | [], .dir cs, x => by
    show lookup (.dir cs) [x] = getChild cs x
    simp only [lookup]
    rcases hg : getChild cs x with _ | c
    · rfl
    · simp [lookup]
  | t :: d', .file c, x => by simp [lookup]
  | t :: d', .dir cs, x => by
    rw [List.cons_append]
    simp only [lookup]
    rcases hg : getChild cs t with _ | c
    · rfl
    · exact lookup_append_last d' c x

def c3st0 : ServerState :=
  ⟨.dir [("tmp", .dir [("t1", .file "A"), ("t2", .file "B")]),
    ("uploads", .dir [("x.txt", .file "orig")])], none⟩

def c3st1 : ServerState :=
  (uploadOp c3st0 ["uploads"] "" [(["tmp", "t1"], "x.txt")]).1

def c3st2 : ServerState :=
  (uploadOp c3st1 ["uploads"] "" [(["tmp", "t2"], "x.txt")]).1

/-- C3: the stored name of an upload is the first free candidate in the
order tried by the loop — the desired name, then base_1.ext, base_2.ext,
and so on — so a colliding upload gets the lowest unused integer suffix and
never lands on an occupied path; concretely, uploading x.txt into a
directory already holding x.txt stores x_1.txt, a third upload stores
x_2.txt, and the earlier files are untouched. -/
theorem c3_upload_collision_naming :
    (∀ (fs : FSNode) (d : List String) (orig : String),
      lookup fs (d ++ [uploadTargetName fs d orig]) = none ∧
      ∃ j, uploadTargetName fs d orig = candidateName orig j ∧
        hasName (childNames fs d) (candidateName orig j) = false ∧
        ∀ i, i < j → hasName (childNames fs d) (candidateName orig i) = true) ∧
    ((uploadOp c3st0 ["uploads"] "" [(["tmp", "t1"], "x.txt")]).2.1
      = .success ["x_1.txt"] ∧
     (uploadOp c3st1 ["uploads"] "" [(["tmp", "t2"], "x.txt")]).2.1
      = .success ["x_2.txt"] ∧
     lookup c3st2.fs ["uploads", "x.txt"] = some (.file "orig") ∧
     lookup c3st2.fs ["uploads", "x_1.txt"] = some (.file "A") ∧
     lookup c3st2.fs ["uploads", "x_2.txt"] = some (.file "B")) := by
  constructor
  · intro fs d orig
    obtain ⟨j0, hj0, hfree⟩ := exists_free_candidate (childNames fs d) orig
    obtain ⟨j, _, heq, hfreej, hmin⟩ := findFreeName_spec
      ((childNames fs d).length + 1) 0 (childNames fs d) orig
      ⟨j0, by omega, by omega, hfree⟩
    have hut : uploadTargetName fs d orig
        = findFreeName (childNames fs d) orig 0
          ((childNames fs d).length + 1) := rfl
    constructor
    · rw [lookup_append_last]
      rcases hl : lookup fs d with _ | n
      · rfl
      · rcases n with c | cs
        · rfl
        · have hocc : childNames fs d = cs.map Prod.fst := by
            rw [childNames, hl]
          rw [hut, heq]
          exact getChild_of_not_hasName (by rw [← hocc]; exact hfreej)
    · exact ⟨j, by rw [hut, heq], hfreej, fun i hi => hmin i (by omega) hi⟩
  · refine ⟨by decide, by decide, by decide, by decide, by decide⟩

end NShare
